import Mathlib

/-!
Verification development for the `ouli` HTTP/WebSocket record-replay proxy.

The Rust sources are shallowly embedded as executable Lean definitions:
machine integers become `Nat` with explicit `% 2^w` where overflow matters,
byte buffers become `List Nat` (each element `< 256`), Rust `String`s become
lists of Unicode scalar values (encoded to UTF-8 bytes where the code hashes
or serializes them), and fallible operations return `Except`.
-/

set_option maxRecDepth 100000

namespace Ouli

/-! ## SHA-256 (the `sha2` crate's `Sha256`, as used by `fingerprint.rs`) -/

/-- 2^32, the modulus for 32-bit arithmetic. -/
def M32 : Nat := 4294967296

/-- Right-rotate a 32-bit word by `n` bits. -/
def rotr (n x : Nat) : Nat := ((x >>> n) ||| (x <<< (32 - n))) % M32

/-- SHA-256 round constants. -/
def sha256K : List Nat :=
  [1116352408, 1899447441, 3049323471, 3921009573, 961987163, 1508970993,
   2453635748, 2870763221, 3624381080, 310598401, 607225278, 1426881987,
   1925078388, 2162078206, 2614888103, 3248222580, 3835390401, 4022224774,
   264347078, 604807628, 770255983, 1249150122, 1555081692, 1996064986,
   2554220882, 2821834349, 2952996808, 3210313671, 3336571891, 3584528711,
   113926993, 338241895, 666307205, 773529912, 1294757372, 1396182291,
   1695183700, 1986661051, 2177026350, 2456956037, 2730485921, 2820302411,
   3259730800, 3345764771, 3516065817, 3600352804, 4094571909, 275423344,
   430227734, 506948616, 659060556, 883997877, 958139571, 1322822218,
   1537002063, 1747873779, 1955562222, 2024104815, 2227730452, 2361852424,
   2428436474, 2756734187, 3204031479, 3329325298]

/-- SHA-256 initial hash state. -/
def sha256H0 : List Nat :=
  [1779033703, 3144134277, 1013904242, 2773480762,
   1359893119, 2600822924, 528734635, 1541459225]

/-- Big sigma-0. -/
def bigS0 (x : Nat) : Nat := rotr 2 x ^^^ rotr 13 x ^^^ rotr 22 x

/-- Big sigma-1. -/
def bigS1 (x : Nat) : Nat := rotr 6 x ^^^ rotr 11 x ^^^ rotr 25 x

/-- Small sigma-0. -/
def smlS0 (x : Nat) : Nat := rotr 7 x ^^^ rotr 18 x ^^^ (x >>> 3)

/-- Small sigma-1. -/
def smlS1 (x : Nat) : Nat := rotr 17 x ^^^ rotr 19 x ^^^ (x >>> 10)

/-- Choice function. -/
def sha256Ch (x y z : Nat) : Nat := (x &&& y) ^^^ ((x ^^^ 0xffffffff) &&& z)

/-- Majority function. -/
def sha256Maj (x y z : Nat) : Nat := (x &&& y) ^^^ (x &&& z) ^^^ (y &&& z)

/-- Big-endian 8-byte encoding of a (< 2^64) natural. -/
def be64 (n : Nat) : List Nat :=
  [(n >>> 56) % 256, (n >>> 48) % 256, (n >>> 40) % 256, (n >>> 32) % 256,
   (n >>> 24) % 256, (n >>> 16) % 256, (n >>> 8) % 256, n % 256]

/-- SHA-256 padding: append `0x80`, zeros to 56 mod 64, then the bit length big-endian. -/
def sha256Pad (msg : List Nat) : List Nat :=
  let L := msg.length
  let k := (119 - L % 64) % 64
  msg ++ 0x80 :: List.replicate k 0 ++ be64 (8 * L)

/-- Split a byte list into chunks of 64, with structural fuel. -/
def chunk64 : Nat → List Nat → List (List Nat)
  | 0, _ => []
  | _ + 1, [] => []
  | fuel + 1, l => l.take 64 :: chunk64 fuel (l.drop 64)

/-- Read `fuel` big-endian 32-bit words off the front of a byte list. -/
def bytesToWordsBE : Nat → List Nat → List Nat
  | 0, _ => []
  | fuel + 1, b0 :: b1 :: b2 :: b3 :: rest =>
      (((b0 * 256 + b1) * 256 + b2) * 256 + b3) :: bytesToWordsBE fuel rest
  | _ + 1, _ => []

/-- One message-schedule step; the schedule is kept newest-first. -/
def schedStep (rev : List Nat) : List Nat :=
  ((smlS1 (rev.getD 1 0) + rev.getD 6 0 + smlS0 (rev.getD 14 0) + rev.getD 15 0) % M32) :: rev

/-- Iterate the schedule step. -/
def schedIter : Nat → List Nat → List Nat
  | 0, rev => rev
  | n + 1, rev => schedIter n (schedStep rev)

/-- The 64-word message schedule from the 16 block words. -/
def sha256Schedule (ws : List Nat) : List Nat :=
  (schedIter 48 ws.reverse).reverse

/-- SHA-256 working state `a..h`. -/
structure Sha256State where
  a : Nat
  b : Nat
  c : Nat
  d : Nat
  e : Nat
  f : Nat
  g : Nat
  h : Nat

/-- One compression round, consuming a (round constant, schedule word) pair. -/
def roundStep (st : Sha256State) (kw : Nat × Nat) : Sha256State :=
  let t1 := (st.h + bigS1 st.e + sha256Ch st.e st.f st.g + kw.1 + kw.2) % M32
  let t2 := (bigS0 st.a + sha256Maj st.a st.b st.c) % M32
  { a := (t1 + t2) % M32, b := st.a, c := st.b, d := st.c,
    e := (st.d + t1) % M32, f := st.e, g := st.f, h := st.g }

/-- Compress one 64-byte block into the running hash words. -/
def compressBlock (hs : List Nat) (block : List Nat) : List Nat :=
  let ws := sha256Schedule (bytesToWordsBE 16 block)
  let st0 : Sha256State :=
    ⟨hs.getD 0 0, hs.getD 1 0, hs.getD 2 0, hs.getD 3 0,
     hs.getD 4 0, hs.getD 5 0, hs.getD 6 0, hs.getD 7 0⟩
  let st := (sha256K.zip ws).foldl roundStep st0
  [(hs.getD 0 0 + st.a) % M32, (hs.getD 1 0 + st.b) % M32, (hs.getD 2 0 + st.c) % M32,
   (hs.getD 3 0 + st.d) % M32, (hs.getD 4 0 + st.e) % M32, (hs.getD 5 0 + st.f) % M32,
   (hs.getD 6 0 + st.g) % M32, (hs.getD 7 0 + st.h) % M32]

/-- The eight 32-bit hash words of a message. -/
def sha256Words (msg : List Nat) : List Nat :=
  let padded := sha256Pad msg
  (chunk64 padded.length padded).foldl compressBlock sha256H0

/-- Big-endian bytes of a 32-bit word. -/
def wordToBytesBE (w : Nat) : List Nat :=
  [(w >>> 24) % 256, (w >>> 16) % 256, (w >>> 8) % 256, w % 256]

/-- SHA-256 digest (32 bytes) of a byte list. -/
def sha256 (msg : List Nat) : List Nat :=
  ((sha256Words msg).map wordToBytesBE).flatten

example : sha256 [] =
    [0xe3, 0xb0, 0xc4, 0x42, 0x98, 0xfc, 0x1c, 0x14, 0x9a, 0xfb, 0xf4, 0xc8, 0x99, 0x6f, 0xb9, 0x24,
     0x27, 0xae, 0x41, 0xe4, 0x64, 0x9b, 0x93, 0x4c, 0xa4, 0x95, 0x99, 0x1b, 0x78, 0x52, 0xb8, 0x55] := by
  decide

example : sha256 [0x61, 0x62, 0x63] =
    [0xba, 0x78, 0x16, 0xbf, 0x8f, 0x01, 0xcf, 0xea, 0x41, 0x41, 0x40, 0xde, 0x5d, 0xae, 0x22, 0x23,
     0xb0, 0x03, 0x61, 0xa3, 0x96, 0x17, 0x7a, 0x9c, 0xb4, 0x10, 0xff, 0x61, 0xf2, 0x00, 0x15, 0xad] := by
  decide

/-! ## Strings

A Rust `String` is modelled as its list of Unicode scalar values.
`String::len` and `as_bytes` go through UTF-8; `str::trim` removes
characters with the Unicode `White_Space` property from both ends.
The case maps `to_lowercase`/`to_uppercase` are modelled on the ASCII
range (identity above it); HTTP methods and header names are ASCII
tokens, and every theorem that depends on case behaviour only does so
on ASCII data. -/

/-- UTF-8 encoding of one Unicode scalar value. -/
def utf8Char (c : Nat) : List Nat :=
  if c < 0x80 then [c]
  else if c < 0x800 then [0xC0 + c / 64, 0x80 + c % 64]
  else if c < 0x10000 then [0xE0 + c / 4096, 0x80 + c / 64 % 64, 0x80 + c % 64]
  else [0xF0 + c / 262144, 0x80 + c / 4096 % 64, 0x80 + c / 64 % 64, 0x80 + c % 64]

/-- UTF-8 bytes of a string (Rust `str::as_bytes`; `String::len` is its length). -/
def utf8 (s : List Nat) : List Nat := (s.map utf8Char).flatten

/-- Rust `char::is_whitespace`: the Unicode `White_Space` property. -/
def isRustWhitespace (c : Nat) : Bool :=
  (0x09 ≤ c && c ≤ 0x0D) || c == 0x20 || c == 0x85 || c == 0xA0 || c == 0x1680 ||
  (0x2000 ≤ c && c ≤ 0x200A) || c == 0x2028 || c == 0x2029 ||
  c == 0x202F || c == 0x205F || c == 0x3000

/-- Rust `u8::is_ascii_whitespace`: space, horizontal tab, newline, form feed,
carriage return. -/
def isAsciiWhitespace (c : Nat) : Bool :=
  c == 0x20 || c == 0x09 || c == 0x0A || c == 0x0C || c == 0x0D

/-- Rust `str::trim`: drop leading and trailing Unicode whitespace. -/
def trimStr (s : List Nat) : List Nat :=
  ((s.dropWhile isRustWhitespace).reverse.dropWhile isRustWhitespace).reverse

/-- Trim only ASCII whitespace from both ends (the spec's wording for header
values; compare `trimStr`, which is what the code does). -/
def trimAscii (s : List Nat) : List Nat :=
  ((s.dropWhile isAsciiWhitespace).reverse.dropWhile isAsciiWhitespace).reverse

/-- `char::to_lowercase` on the ASCII range (identity above it). -/
def charLower (c : Nat) : Nat := if 0x41 ≤ c && c ≤ 0x5A then c + 32 else c

/-- `char::to_uppercase` on the ASCII range (identity above it). -/
def charUpper (c : Nat) : Nat := if 0x61 ≤ c && c ≤ 0x7A then c - 32 else c

/-- `str::to_lowercase` (ASCII fragment). -/
def lowerStr (s : List Nat) : List Nat := s.map charLower

/-- `str::to_uppercase` (ASCII fragment). -/
def upperStr (s : List Nat) : List Nat := s.map charUpper

/-- Byte-lexicographic `≤` on strings: Rust's `Ord` for `str` (UTF-8 encoding
preserves scalar-value order, so comparing scalar values is the same order). -/
def lexLe : List Nat → List Nat → Bool
  | [], _ => true
  | _ :: _, [] => false
  | a :: as, b :: bs => if a < b then true else if b < a then false else lexLe as bs

/-- Insert an element into a key-sorted list, after all elements whose key is
strictly below and before the first element whose key is `≥` — the position a
stable sort assigns to a later-arriving element. -/
def insertByKey {α : Type} (key : α → List Nat) (x : α) : List α → List α
  | [] => [x]
  | y :: ys => if lexLe (key x) (key y) then x :: y :: ys else y :: insertByKey key x ys

/-- Stable sort by a string key. Rust's `Vec::sort_by` is stable, and a stable
sort's output is uniquely determined (elements in key order, equal keys in
input order); insertion with `insertByKey` realizes exactly that output. -/
def sortByKey {α : Type} (key : α → List Nat) : List α → List α
  | [] => []
  | x :: xs => insertByKey key x (sortByKey key xs)

/-! ## Fingerprinting (`src/fingerprint.rs`) -/

/-- `CHAIN_HEAD_HASH`: the chain-head constant from `fingerprint.rs`. -/
def CHAIN_HEAD_HASH : List Nat :=
  [0xb4, 0xd6, 0xe6, 0x0a, 0x9b, 0x97, 0xe7, 0xb9, 0x8c, 0x63, 0xdf, 0x93, 0x08, 0x72, 0x8c, 0x5c,
   0x88, 0xc0, 0xb4, 0x0c, 0x39, 0x80, 0x46, 0x77, 0x2c, 0x63, 0x44, 0x7b, 0x94, 0x60, 0x8b, 0x4d]

/-- A parsed HTTP request (`fingerprint::Request`). -/
structure Request where
  method : List Nat
  path : List Nat
  query : List (List Nat × List Nat)
  headers : List (List Nat × List Nat)
  body : List Nat
deriving DecidableEq

/-- `normalize_path`: trim whitespace, ensure a leading slash. -/
def normalize_path (path : List Nat) : List Nat :=
  let trimmed := trimStr path
  if trimmed.isEmpty || trimmed.head? != some 0x2F then 0x2F :: trimmed else trimmed

/-- Little-endian 4-byte encoding of `n as u32` (`(n as u32).to_le_bytes()`). -/
def le32 (n : Nat) : List Nat :=
  [n % 256, (n >>> 8) % 256, (n >>> 16) % 256, (n >>> 24) % 256]

/-- A byte string preceded by its 32-bit little-endian length. -/
def lenPrefixed (bs : List Nat) : List Nat := le32 bs.length ++ bs

/-- The query pairs as `fingerprint_request` sorts them:
`query.sort_by(|a, b| a.0.cmp(&b.0))` (stable, key ascending). -/
def queryCanon (q : List (List Nat × List Nat)) : List (List Nat × List Nat) :=
  sortByKey Prod.fst q

/-- The header pairs as `fingerprint_request` sorts them:
`headers.sort_by(|a, b| a.0.to_lowercase().cmp(&b.0.to_lowercase()))`. -/
def headersSorted (hs : List (List Nat × List Nat)) : List (List Nat × List Nat) :=
  sortByKey (fun p => lowerStr p.1) hs

/-- The exact byte sequence `fingerprint_request` feeds to SHA-256: uppercased
method, normalized path, sorted query pairs, sorted headers with lowercased
names and trimmed values, body — each length-prefixed — then the 32 bytes of
the predecessor hash raw. -/
def fingerprintMsg (r : Request) (prev : List Nat) : List Nat :=
  lenPrefixed (utf8 (upperStr r.method)) ++
  lenPrefixed (utf8 (normalize_path r.path)) ++
  ((queryCanon r.query).map (fun p => lenPrefixed (utf8 p.1) ++ lenPrefixed (utf8 p.2))).flatten ++
  ((headersSorted r.headers).map
      (fun p => lenPrefixed (utf8 (lowerStr p.1)) ++ lenPrefixed (utf8 (trimStr p.2)))).flatten ++
  lenPrefixed r.body ++ prev

/-- `fingerprint_request`: SHA-256 of the canonical encoding. -/
def fingerprint_request (r : Request) (prev : List Nat) : List Nat :=
  sha256 (fingerprintMsg r prev)

/-- The empty request: method `""`, path `""` (normalizing to `"/"`), no
query, no headers, empty body. -/
def emptyRequest : Request := ⟨[], [], [], [], []⟩

example : fingerprint_request emptyRequest (List.replicate 32 0) =
    [0x3b, 0x32, 0x29, 0x57, 0xba, 0xda, 0xea, 0x3d, 0x02, 0x0f, 0x7a, 0xc5, 0x00, 0x59, 0x7b, 0x5e,
     0xd4, 0x7e, 0x31, 0xd3, 0xd5, 0xb5, 0x5a, 0x48, 0xf3, 0x9c, 0xdf, 0xbd, 0xb5, 0x94, 0x55, 0x3e] := by
  decide

example : fingerprint_request
    ⟨[0x67, 0x65, 0x74],
     [0x20, 0x20, 0x61, 0x70, 0x69, 0x2F, 0x74, 0x65, 0x73, 0x74, 0x20],
     [([0x62], [0x32]), ([0x61], [0x31])],
     [([0x58, 0x2D, 0x4B, 0x65, 0x79], [0x20, 0x76, 0x20]),
      ([0x61, 0x63, 0x63, 0x65, 0x70, 0x74], [0x6A, 0x73, 0x6F, 0x6E])],
     [0x68, 0x65, 0x6C, 0x6C, 0x6F]⟩ CHAIN_HEAD_HASH =
    [0x06, 0x62, 0x54, 0xce, 0x3a, 0x54, 0x3d, 0x77, 0xeb, 0x35, 0xa7, 0x5e, 0xf4, 0x6d, 0x3e, 0x03,
     0x3e, 0x1b, 0x38, 0x79, 0xe0, 0x7b, 0x99, 0x96, 0x39, 0x70, 0xe5, 0xe0, 0xec, 0xe6, 0x56, 0x67] := by
  decide

/-! ## Errors (`src/error.rs`, the constructors the modelled code produces) -/

/-- The subset of `OuliError` reachable from the modelled code paths. -/
inductive OuliError where
  | InvalidFormat (msg : String)
  | CorruptedData (offset expected actual : Nat)
  | RecordingNotFound (hash : List Nat)
  | FileNotFound (path : String)
  | Other (msg : String)
deriving DecidableEq

/-! ## Response serialization (`recording/engine.rs` / `replay/cache.rs`)

Response header names and values are modelled as their UTF-8 byte lists:
`serialize_response` writes `String` bytes, and `deserialize_response`
rebuilds them with `String::from_utf8_lossy`, which is the identity on the
bytes of a valid `String`. -/

/-- Little-endian 2-byte encoding of `n as u16` (`(n as u16).to_le_bytes()`). -/
def le16 (n : Nat) : List Nat := [n % 256, (n >>> 8) % 256]

/-- A recorded HTTP response (`recording::Response`). -/
structure RecResponse where
  status : Nat
  headers : List (List Nat × List Nat)
  body : List Nat
deriving DecidableEq

/-- One header pair as `serialize_response` writes it: `u16` name length,
name bytes, `u16` value length, value bytes. -/
def serHeaderPair (p : List Nat × List Nat) : List Nat :=
  le16 p.1.length ++ p.1 ++ le16 p.2.length ++ p.2

/-- `serialize_response`: status, header count, header pairs (all
length-prefixed with `u16` counts), then the `u32`-length-prefixed body. -/
def serialize_response (r : RecResponse) : List Nat :=
  le16 r.status ++ le16 r.headers.length ++
  (r.headers.map serHeaderPair).flatten ++
  le32 r.body.length ++ r.body

/-- A cached response (`replay::cache::CachedResponse`). -/
structure CachedResponse where
  status : Nat
  headers : List (List Nat × List Nat)
  body : List Nat
deriving DecidableEq

/-- Read a little-endian `u16` off the front (the code's
`data.len() < offset + 2` check followed by `u16::from_le_bytes`). -/
def readLe16 : List Nat → Option (Nat × List Nat)
  | b0 :: b1 :: rest => some (b0 + 256 * b1, rest)
  | _ => none

/-- Read a little-endian `u32` off the front. -/
def readLe32 : List Nat → Option (Nat × List Nat)
  | b0 :: b1 :: b2 :: b3 :: rest => some (b0 + 256 * (b1 + 256 * (b2 + 256 * b3)), rest)
  | _ => none

/-- Take exactly `k` bytes off the front (the code's slice
`data[offset..offset + k]` guarded by a length check). -/
def takeExact (k : Nat) (l : List Nat) : Option (List Nat × List Nat) :=
  if k ≤ l.length then some (l.take k, l.drop k) else none

/-- The header loop of `deserialize_response`: `n` iterations of
name length / name / value length / value. -/
def parseHeaderList : Nat → List Nat → Except OuliError (List (List Nat × List Nat) × List Nat)
  | 0, rest => .ok ([], rest)
  | n + 1, rest =>
    match readLe16 rest with
    | none => .error (.InvalidFormat "Missing header name length")
    | some (nameLen, rest) =>
      match takeExact nameLen rest with
      | none => .error (.InvalidFormat "Missing header name")
      | some (name, rest) =>
        match readLe16 rest with
        | none => .error (.InvalidFormat "Missing header value length")
        | some (valLen, rest) =>
          match takeExact valLen rest with
          | none => .error (.InvalidFormat "Missing header value")
          | some (val, rest) =>
            match parseHeaderList n rest with
            | .error e => .error e
            | .ok (hs, rest) => .ok ((name, val) :: hs, rest)

/-- `deserialize_response`: status, header count, headers, body. The code
walks a monotone offset through `data`; that is modelled by consuming the
front of the list. Trailing bytes after the body are ignored, as in the code. -/
def deserialize_response (data : List Nat) : Except OuliError CachedResponse :=
  match readLe16 data with
  | none => .error (.InvalidFormat "Response too short")
  | some (status, rest) =>
    match readLe16 rest with
    | none => .error (.InvalidFormat "Missing headers count")
    | some (count, rest) =>
      match parseHeaderList count rest with
      | .error e => .error e
      | .ok (headers, rest) =>
        match readLe32 rest with
        | none => .error (.InvalidFormat "Missing body length")
        | some (bodyLen, rest) =>
          match takeExact bodyLen rest with
          | none => .error (.InvalidFormat "Missing body")
          | some (body, _) => .ok ⟨status, headers, body⟩

/-- Well-formedness of a modelled response: every content byte fits in a
`u8`, as Rust's `Vec<u8>`/`String` guarantee. -/
@[reducible] def respWF (r : RecResponse) : Prop :=
  (∀ p ∈ r.headers, (∀ b ∈ p.1, b < 256) ∧ (∀ b ∈ p.2, b < 256)) ∧ ∀ b ∈ r.body, b < 256

/-- The bounds under which the `u16`/`u32` length casts in
`serialize_response` are lossless. -/
@[reducible] def respBounds (r : RecResponse) : Prop :=
  r.status < 65536 ∧ r.headers.length < 65536 ∧
  (∀ p ∈ r.headers, p.1.length < 65536 ∧ p.2.length < 65536) ∧
  r.body.length < 4294967296

/-! ## CRC-32 (the `crc32fast` crate: IEEE polynomial, reflected,
initial value `0xFFFFFFFF`, final complement) -/

/-- The bit-reversed CRC-32 (IEEE) polynomial. -/
def crcPOLY : Nat := 0xEDB88320

/-- One bit step of CRC-32. -/
def crcBit (crc : Nat) : Nat :=
  if crc % 2 == 1 then (crc >>> 1) ^^^ crcPOLY else crc >>> 1

/-- One byte step of CRC-32. -/
def crcByte (crc byte : Nat) : Nat :=
  crcBit (crcBit (crcBit (crcBit (crcBit (crcBit (crcBit (crcBit (crc ^^^ byte))))))))

/-- CRC-32 checksum of a byte list (`crc32fast::Hasher` update + finalize). -/
def crc32 (data : List Nat) : Nat :=
  (data.foldl crcByte 0xFFFFFFFF) ^^^ 0xFFFFFFFF

example : crc32 [0x31, 0x32, 0x33, 0x34, 0x35, 0x36, 0x37, 0x38, 0x39] = 0xCBF43926 := by
  decide

/-! ## Storage format (`storage/format.rs`, `storage/mod.rs`) -/

/-- File magic bytes `"OULI\x00\x01\x00\x00"`. -/
def FILE_MAGIC : List Nat := [0x4F, 0x55, 0x4C, 0x49, 0x00, 0x01, 0x00, 0x00]

/-- Current format version (`FILE_VERSION`). -/
def FILE_VERSION : Nat := 2

/-- Legacy format version (`FILE_VERSION_V1`). -/
def FILE_VERSION_V1 : Nat := 1

/-- Header size in bytes. -/
def HEADER_SIZE : Nat := 128

/-- Index entry size in bytes. -/
def INDEX_ENTRY_SIZE : Nat := 128

/-- Maximum chain depth. -/
def CHAIN_DEPTH_MAX : Nat := 65536

/-- The 128-byte file header (`FileHeader`), field for field. The ten
reserved bytes are always zero and appear only in the encoding. -/
structure FileHeader where
  magic : List Nat
  version : Nat
  header_crc : Nat
  recording_id : List Nat
  interaction_count : Nat
  data_offset : Nat
  file_size : Nat
  created_at : Nat
  final_chain_state : List Nat
  feature_flags : Nat
  compression_type : Nat
  compression_level : Nat
deriving DecidableEq

/-- `FileHeader::default()`. -/
def defaultFileHeader : FileHeader :=
  { magic := FILE_MAGIC, version := FILE_VERSION, header_crc := 0,
    recording_id := List.replicate 32 0, interaction_count := 0,
    data_offset := HEADER_SIZE + INDEX_ENTRY_SIZE * CHAIN_DEPTH_MAX,
    file_size := 0, created_at := 0, final_chain_state := List.replicate 32 0,
    feature_flags := 0, compression_type := 0, compression_level := 0 }

/-- `storage::validate_header`: magic must match, version must be 1 or 2.
The formatted payloads of the error messages are elided. -/
def validate_header (h : FileHeader) : Except OuliError Unit :=
  if h.magic ≠ FILE_MAGIC then
    .error (.InvalidFormat "Invalid magic bytes")
  else if h.version ≠ FILE_VERSION ∧ h.version ≠ FILE_VERSION_V1 then
    .error (.InvalidFormat "Unsupported version")
  else .ok ()

/-- Little-endian 8-byte encoding of a `u64`. -/
def le64 (n : Nat) : List Nat :=
  [n % 256, (n >>> 8) % 256, (n >>> 16) % 256, (n >>> 24) % 256,
   (n >>> 32) % 256, (n >>> 40) % 256, (n >>> 48) % 256, (n >>> 56) % 256]

/-- The `repr(C)` byte image of a `FileHeader` (what `bytemuck::bytes_of`
writes to the mapping). -/
def encodeFileHeader (h : FileHeader) : List Nat :=
  h.magic ++ le32 h.version ++ le32 h.header_crc ++ h.recording_id ++
  le64 h.interaction_count ++ le64 h.data_offset ++ le64 h.file_size ++
  le64 h.created_at ++ h.final_chain_state ++ le32 h.feature_flags ++
  [h.compression_type % 256, h.compression_level % 256] ++ List.replicate 10 0

/-- Decode a little-endian `u32` from the first four bytes of a list. -/
def decodeLe32 (l : List Nat) : Nat :=
  l.getD 0 0 + 256 * (l.getD 1 0 + 256 * (l.getD 2 0 + 256 * l.getD 3 0))

/-- Decode a little-endian `u64` from the first eight bytes of a list. -/
def decodeLe64 (l : List Nat) : Nat :=
  l.getD 0 0 + 256 * (l.getD 1 0 + 256 * (l.getD 2 0 + 256 * (l.getD 3 0 + 256 *
  (l.getD 4 0 + 256 * (l.getD 5 0 + 256 * (l.getD 6 0 + 256 * l.getD 7 0))))))

/-- Reinterpret the first 128 bytes of a mapping as a `FileHeader`
(`bytemuck::from_bytes`). -/
def decodeFileHeader (b : List Nat) : FileHeader :=
  { magic := b.take 8, version := decodeLe32 (b.drop 8), header_crc := decodeLe32 (b.drop 12),
    recording_id := (b.drop 16).take 32, interaction_count := decodeLe64 (b.drop 48),
    data_offset := decodeLe64 (b.drop 56), file_size := decodeLe64 (b.drop 64),
    created_at := decodeLe64 (b.drop 72), final_chain_state := (b.drop 80).take 32,
    feature_flags := decodeLe32 (b.drop 112),
    compression_type := (b.drop 116).getD 0 0, compression_level := (b.drop 117).getD 0 0 }

/-! ## Recording writer (`storage/writer.rs`) -/

/-- One 128-byte index entry (`InteractionEntry`), reserved tail omitted. -/
structure InteractionEntry where
  request_hash : List Nat
  prev_request_hash : List Nat
  request_offset : Nat
  response_offset : Nat
  timestamp : Nat
  request_size : Nat
  response_size : Nat
deriving DecidableEq

/-- The state a `RecordingWriter` carries: its header mirror, the index
entries written so far, and the bytes of the data section. `u64` offsets
are modelled as unbounded naturals (no recording approaches `2^64` bytes);
the `as u32` size casts keep their truncation. -/
structure WriterState where
  header : FileHeader
  entries : List InteractionEntry
  data : List Nat
deriving DecidableEq

/-- `RecordingWriter::create`: a fresh file with the default header carrying
the recording id and creation time. -/
def writerCreate (recording_id : List Nat) (created_at : Nat) : WriterState :=
  { header := { defaultFileHeader with recording_id, created_at },
    entries := [], data := [] }

/-- `RecordingWriter::append_interaction`. Fails (state untouched) when the
index is full; otherwise writes the index entry at the next slot and the two
blobs back to back at the end of the data section, and bumps
`interaction_count` and `file_size` in the header mirror. Returned as
(result, state-after) to mirror `&mut self`. -/
def appendInteraction (w : WriterState) (request_hash prev_request_hash : List Nat)
    (request_data response_data : List Nat) (ts : Nat) :
    Except OuliError Unit × WriterState :=
  if CHAIN_DEPTH_MAX ≤ w.header.interaction_count then
    (.error (.Other "Recording full: max chain depth reached"), w)
  else
    let data_offset := w.header.data_offset + w.header.file_size
    let entry : InteractionEntry :=
      { request_hash, prev_request_hash,
        request_offset := data_offset,
        response_offset := data_offset + request_data.length,
        timestamp := ts,
        request_size := request_data.length % 4294967296,
        response_size := response_data.length % 4294967296 }
    (.ok (), { header := { w.header with
                 interaction_count := w.header.interaction_count + 1,
                 file_size := w.header.file_size + request_data.length + response_data.length },
               entries := w.entries ++ [entry],
               data := w.data ++ request_data ++ response_data })

/-- `RecordingWriter::finalize`: store the final chain state, write the
header with CRC zero, compute the CRC over bytes `0..12` and `16..128`, and
write the header again with it. Returns the final header bytes. -/
def finalizeHeader (w : WriterState) (final_chain_state : List Nat) : List Nat :=
  let h1 := { w.header with final_chain_state := final_chain_state, header_crc := 0 }
  let b := encodeFileHeader h1
  let crc := crc32 (b.take 12 ++ b.drop 16)
  encodeFileHeader { h1 with header_crc := crc }

/-! ## Recording reader (`storage/reader.rs`) -/

/-- `RecordingReader::open`, at header granularity: size check, header
reinterpretation, magic/version validation, CRC recomputation over bytes
`0..12` and `16..128`. -/
def openHeader (bytes : List Nat) : Except OuliError FileHeader :=
  if bytes.length < HEADER_SIZE then
    .error (.InvalidFormat "File too small to contain header")
  else
    let header := decodeFileHeader bytes
    match validate_header header with
    | .error e => .error e
    | .ok _ =>
      let computed := crc32 (bytes.take 12 ++ (bytes.drop 16).take 112)
      if header.header_crc ≠ computed then
        .error (.CorruptedData 0 header.header_crc computed)
      else .ok header

/-- `RecordingReader::read_response`: the mapping slice
`[response_offset, response_offset + response_size)`, failing when the range
runs past the end of the file. The file length after finalize is
`data_offset + data.length`; the slice is taken inside the data section. -/
def read_response (dataOffset : Nat) (data : List Nat) (e : InteractionEntry) :
    Except OuliError (List Nat) :=
  if dataOffset + data.length < e.response_offset + e.response_size then
    .error (.InvalidFormat "Response data extends beyond file")
  else
    .ok ((data.drop (e.response_offset - dataOffset)).take e.response_size)

/-! ## Recording engine (`recording/engine.rs`) -/

/-- `serialize_request`: method, path, query pairs, header pairs (all with
`u16` length prefixes), then the `u32`-length-prefixed body. String fields go
through UTF-8 (`String::len` / `as_bytes`). -/
def serialize_request (r : Request) : List Nat :=
  let m := utf8 r.method
  let p := utf8 r.path
  le16 m.length ++ m ++ le16 p.length ++ p ++
  le16 r.query.length ++
  (r.query.map (fun q =>
    le16 (utf8 q.1).length ++ utf8 q.1 ++ le16 (utf8 q.2).length ++ utf8 q.2)).flatten ++
  le16 r.headers.length ++
  (r.headers.map (fun q =>
    le16 (utf8 q.1).length ++ utf8 q.1 ++ le16 (utf8 q.2).length ++ utf8 q.2)).flatten ++
  le32 r.body.length ++ r.body

/-- `RecordingEngine::record_interaction`, viewed from one session: read the
chain, fingerprint, advance the chain, serialize both sides, append.
Timestamps are passed in (the code reads the clock). In the code a
chain-depth failure happens after the chain already advanced; the claims
below only concern successful calls, so the error branch discards state. -/
def record_interaction (chain : List Nat) (w : WriterState) (r : Request)
    (resp : RecResponse) (ts : Nat) : Except OuliError (List Nat × WriterState) :=
  let prev := chain
  let request_hash := fingerprint_request r prev
  let request_data := serialize_request r
  let response_data := serialize_response resp
  match appendInteraction w request_hash prev request_data response_data ts with
  | (.error e, _) => .error e
  | (.ok _, w') => .ok (request_hash, w')

/-- A whole session: `record_interaction` over a list of pairs in order. -/
def recordTrace (chain : List Nat) (w : WriterState) :
    List (Request × RecResponse) → Except OuliError (List Nat × WriterState)
  | [] => .ok (chain, w)
  | (r, resp) :: rest =>
    match record_interaction chain w r resp 0 with
    | .error e => .error e
    | .ok (chain', w') => recordTrace chain' w' rest

/-- The chain value in force just before the `i`-th request of a session that
starts at `c`: the fingerprint fold over the first `i` requests. -/
def chainAt (c : List Nat) : List Request → Nat → List Nat
  | _, 0 => c
  | [], _ + 1 => c
  | r :: rs, i + 1 => chainAt (fingerprint_request r c) rs i

/-! ## Replay cache and engine (`replay/cache.rs`, `replay/engine.rs`) -/

/-- The replay cache's hash → response map. `DashMap::insert` overwrites, so
the model prepends and `cacheLookup` takes the first (most recent) match. -/
def ReplayCacheMap : Type := List (List Nat × CachedResponse)

/-- `ReplayCache::lookup` (hit/miss counters elided). -/
def cacheLookup : List (List Nat × CachedResponse) → List Nat → Option CachedResponse
  | [], _ => none
  | (k, v) :: rest, h => if k = h then some v else cacheLookup rest h

/-- The entry loop of `ReplayCache::load_recording`: for each index entry in
slot order, read the response blob and deserialize it; failures of either
step skip the entry. -/
def loadEntries (dataOffset : Nat) (data : List Nat)
    (cache : List (List Nat × CachedResponse)) :
    List InteractionEntry → List (List Nat × CachedResponse)
  | [] => cache
  | e :: rest =>
    let cache' :=
      match read_response dataOffset data e with
      | .error _ => cache
      | .ok bytes =>
        match deserialize_response bytes with
        | .error _ => cache
        | .ok resp => (e.request_hash, resp) :: cache
    loadEntries dataOffset data cache' rest

/-- `ReplayEngine::replay_request`: fingerprint with the caller's `prev_hash`
and look the hash up in the cache; a miss is `RecordingNotFound`. -/
def replay_request (cache : List (List Nat × CachedResponse)) (r : Request)
    (prev_hash : List Nat) : Except OuliError CachedResponse :=
  let request_hash := fingerprint_request r prev_hash
  match cacheLookup cache request_hash with
  | some resp => .ok resp
  | none => .error (.RecordingNotFound request_hash)

/-! ## Proxy dispatcher, replay path (`proxy/http.rs`) -/

/-- `HttpProxy::handle_replay`: read `prev_hash` from the shared chain, call
the replay engine, and return the result together with the chain state after
the call. The code never writes to `request_chain` in this path, so the
returned chain is the one that was read. -/
def handle_replay (chain : List Nat) (cache : List (List Nat × CachedResponse))
    (r : Request) : Except OuliError CachedResponse × List Nat :=
  let prev_hash := chain
  match replay_request cache r prev_hash with
  | .ok cached => (.ok cached, chain)
  | .error e => (.error e, chain)

/-! ## Lemmas: serialization roundtrip -/

/-- View a recorded response as the cached response its bytes rebuild. -/
def toCached (r : RecResponse) : CachedResponse := ⟨r.status, r.headers, r.body⟩

theorem readLe16_le16 (n : Nat) (rest : List Nat) (h : n < 65536) :
    readLe16 (le16 n ++ rest) = some (n, rest) := by
  simp only [le16, List.cons_append, List.nil_append, readLe16]
  have h8 : n >>> 8 = n / 256 := by rw [Nat.shiftRight_eq_div_pow]
  rw [h8]
  have hn : n % 256 + 256 * (n / 256 % 256) = n := by omega
  rw [hn]

theorem readLe32_le32 (n : Nat) (rest : List Nat) (h : n < 4294967296) :
    readLe32 (le32 n ++ rest) = some (n, rest) := by
  simp only [le32, List.cons_append, List.nil_append, readLe32]
  have h8 : n >>> 8 = n / 256 := by rw [Nat.shiftRight_eq_div_pow]
  have h16 : n >>> 16 = n / 65536 := by rw [Nat.shiftRight_eq_div_pow]
  have h24 : n >>> 24 = n / 16777216 := by rw [Nat.shiftRight_eq_div_pow]
  rw [h8, h16, h24]
  have hn : n % 256 + 256 * (n / 256 % 256 + 256 * (n / 65536 % 256 + 256 * (n / 16777216 % 256))) = n := by
    omega
  rw [hn]

theorem takeExact_append (l rest : List Nat) :
    takeExact l.length (l ++ rest) = some (l, rest) := by
  simp [takeExact, List.take_left, List.drop_left]

theorem takeExact_self (l : List Nat) : takeExact l.length l = some (l, []) := by
  simp [takeExact]

theorem parseHeaderList_append (hs : List (List Nat × List Nat)) (rest : List Nat)
    (hb : ∀ p ∈ hs, p.1.length < 65536 ∧ p.2.length < 65536) :
    parseHeaderList hs.length ((hs.map serHeaderPair).flatten ++ rest) = .ok (hs, rest) := by
  induction hs generalizing rest with
  | nil => simp [parseHeaderList]
  | cons p ps ih =>
    obtain ⟨h1, h2⟩ := hb p (List.mem_cons_self p ps)
    simp only [List.map_cons, List.flatten_cons, List.length_cons, serHeaderPair,
      List.append_assoc, parseHeaderList, readLe16_le16 _ _ h1, takeExact_append,
      readLe16_le16 _ _ h2, ih rest (fun q hq => hb q (List.mem_cons_of_mem _ hq))]

/-- Forward direction: under the bounds, `deserialize_response` inverts
`serialize_response`. -/
theorem deserialize_serialize (r : RecResponse) (hb : respBounds r) :
    deserialize_response (serialize_response r) = .ok (toCached r) := by
  obtain ⟨hs, hc, hh, hbody⟩ := hb
  simp only [serialize_response, deserialize_response, List.append_assoc,
    readLe16_le16 _ _ hs, readLe16_le16 _ _ hc, parseHeaderList_append _ _ hh,
    readLe32_le32 _ _ hbody, takeExact_self, toCached]

theorem readLe16_bound {data : List Nat} {v : Nat} {rest : List Nat}
    (hlt : ∀ b ∈ data, b < 256) (h : readLe16 data = some (v, rest)) :
    v < 65536 ∧ ∀ b ∈ rest, b < 256 := by
  match data with
  | [] => simp [readLe16] at h
  | [b0] => simp [readLe16] at h
  | b0 :: b1 :: rest' =>
    simp only [readLe16, Option.some.injEq, Prod.mk.injEq] at h
    obtain ⟨hv, hr⟩ := h
    subst hv; subst hr
    have h0 := hlt b0 (by simp)
    have h1 := hlt b1 (by simp)
    exact ⟨by omega, fun b hb => hlt b (by simp [hb])⟩

theorem readLe32_bound {data : List Nat} {v : Nat} {rest : List Nat}
    (hlt : ∀ b ∈ data, b < 256) (h : readLe32 data = some (v, rest)) :
    v < 4294967296 ∧ ∀ b ∈ rest, b < 256 := by
  match data with
  | [] => simp [readLe32] at h
  | [b0] => simp [readLe32] at h
  | [b0, b1] => simp [readLe32] at h
  | [b0, b1, b2] => simp [readLe32] at h
  | b0 :: b1 :: b2 :: b3 :: rest' =>
    simp only [readLe32, Option.some.injEq, Prod.mk.injEq] at h
    obtain ⟨hv, hr⟩ := h
    subst hv; subst hr
    have h0 := hlt b0 (by simp)
    have h1 := hlt b1 (by simp)
    have h2 := hlt b2 (by simp)
    have h3 := hlt b3 (by simp)
    exact ⟨by omega, fun b hb => hlt b (by simp [hb])⟩

theorem takeExact_ok {k : Nat} {l taken rest : List Nat}
    (hlt : ∀ b ∈ l, b < 256) (h : takeExact k l = some (taken, rest)) :
    taken.length = k ∧ (∀ b ∈ taken, b < 256) ∧ ∀ b ∈ rest, b < 256 := by
  simp only [takeExact] at h
  split at h
  · next hk =>
    simp only [Option.some.injEq, Prod.mk.injEq] at h
    obtain ⟨ht, hr⟩ := h
    subst ht; subst hr
    refine ⟨by rw [List.length_take]; omega, ?_, ?_⟩
    · exact fun b hb => hlt b (List.mem_of_mem_take hb)
    · exact fun b hb => hlt b (List.mem_of_mem_drop hb)
  · exact absurd h (by simp)

theorem parseHeaderList_ok {n : Nat} {data : List Nat}
    {hs : List (List Nat × List Nat)} {rest : List Nat}
    (hlt : ∀ b ∈ data, b < 256) (h : parseHeaderList n data = .ok (hs, rest)) :
    hs.length = n ∧ (∀ p ∈ hs, p.1.length < 65536 ∧ p.2.length < 65536) ∧
      ∀ b ∈ rest, b < 256 := by
  induction n generalizing data hs rest with
  | zero =>
    simp only [parseHeaderList, Except.ok.injEq, Prod.mk.injEq] at h
    obtain ⟨hh, hr⟩ := h
    subst hh; subst hr
    exact ⟨rfl, by simp, hlt⟩
  | succ n ih =>
    simp only [parseHeaderList] at h
    split at h
    · exact absurd h (by simp)
    next nameLen r1 h1 =>
    split at h
    · exact absurd h (by simp)
    next name r2 h2 =>
    split at h
    · exact absurd h (by simp)
    next valLen r3 h3 =>
    split at h
    · exact absurd h (by simp)
    next val r4 h4 =>
    split at h
    · exact absurd h (by simp)
    next hs' rest' h5 =>
    obtain ⟨hn1, hr1⟩ := readLe16_bound hlt h1
    obtain ⟨hname, hnb, hr2⟩ := takeExact_ok hr1 h2
    obtain ⟨hn3, hr3⟩ := readLe16_bound hr2 h3
    obtain ⟨hval, hvb, hr4⟩ := takeExact_ok hr3 h4
    simp only [Except.ok.injEq, Prod.mk.injEq] at h
    obtain ⟨hh, hr⟩ := h
    subst hh; subst hr
    obtain ⟨hlen, hbnd, hrb⟩ := ih hr4 h5
    refine ⟨by simp [hlen], ?_, hrb⟩
    intro p hp
    rcases List.mem_cons.mp hp with hp | hp
    · subst hp
      constructor
      · show name.length < 65536
        omega
      · show val.length < 65536
        omega
    · exact hbnd p hp

/-- Any successful parse yields a response inside the serialization bounds. -/
theorem deserialize_response_ok {data : List Nat} {resp : CachedResponse}
    (hlt : ∀ b ∈ data, b < 256) (h : deserialize_response data = .ok resp) :
    resp.status < 65536 ∧ resp.headers.length < 65536 ∧
    (∀ p ∈ resp.headers, p.1.length < 65536 ∧ p.2.length < 65536) ∧
    resp.body.length < 4294967296 := by
  simp only [deserialize_response] at h
  split at h
  · exact absurd h (by simp)
  next status r1 h1 =>
  split at h
  · exact absurd h (by simp)
  next count r2 h2 =>
  split at h
  · exact absurd h (by simp)
  next headers r3 h3 =>
  split at h
  · exact absurd h (by simp)
  next bodyLen r4 h4 =>
  split at h
  · exact absurd h (by simp)
  next body r5 h5 =>
  obtain ⟨hst, hr1⟩ := readLe16_bound hlt h1
  obtain ⟨hcnt, hr2⟩ := readLe16_bound hr1 h2
  obtain ⟨hhl, hhb, hr3⟩ := parseHeaderList_ok hr2 h3
  obtain ⟨hbl, hr4⟩ := readLe32_bound hr3 h4
  obtain ⟨hblen, _, _⟩ := takeExact_ok hr4 h5
  simp only [Except.ok.injEq] at h
  subst h
  refine ⟨hst, ?_, hhb, ?_⟩
  · show headers.length < 65536
    omega
  · show body.length < 4294967296
    omega

/-- Every byte `serialize_response` emits for a well-formed response is a
`u8`. -/
theorem serialize_response_lt (r : RecResponse) (hwf : respWF r) :
    ∀ b ∈ serialize_response r, b < 256 := by
  obtain ⟨hhdr, hbody⟩ := hwf
  have hle16 : ∀ (n b : Nat), b ∈ le16 n → b < 256 := by
    intro n b hb
    simp only [le16, List.mem_cons, List.not_mem_nil, or_false] at hb
    rcases hb with hb | hb <;> omega
  have hle32 : ∀ (n b : Nat), b ∈ le32 n → b < 256 := by
    intro n b hb
    simp only [le32, List.mem_cons, List.not_mem_nil, or_false] at hb
    rcases hb with hb | hb | hb | hb <;> omega
  intro b hb
  simp only [serialize_response, List.mem_append] at hb
  rcases hb with (((hb | hb) | hb) | hb) | hb
  · exact hle16 _ _ hb
  · exact hle16 _ _ hb
  · rw [List.mem_flatten] at hb
    obtain ⟨l, hl, hbl⟩ := hb
    rw [List.mem_map] at hl
    obtain ⟨p, hp, hpl⟩ := hl
    subst hpl
    obtain ⟨hp1, hp2⟩ := hhdr p hp
    simp only [serHeaderPair, List.mem_append] at hbl
    rcases hbl with ((hb | hb) | hb) | hb
    · exact hle16 _ _ hb
    · exact hp1 b hb
    · exact hle16 _ _ hb
    · exact hp2 b hb
  · exact hle32 _ _ hb
  · exact hbody b hb

/-! ## Shared sample values -/

/-- A small concrete request: `GET /test`, no query, headers or body. -/
def getTestRequest : Request :=
  ⟨[0x47, 0x45, 0x54], [0x2F, 0x74, 0x65, 0x73, 0x74], [], [], []⟩

/-- A small concrete cached response. -/
def okCachedResponse : CachedResponse := ⟨200, [], [0x68, 0x69]⟩

/-- A small concrete recorded response. -/
def okRecResponse : RecResponse := ⟨200, [([0x61], [0x62])], [0x68, 0x69]⟩

/-! ## C10 -/

/-- C10: for a well-formed response, `deserialize_response ∘
serialize_response` returns the response itself exactly when the header
count, header-name/value byte lengths are each below 2^16 and the body
length is below 2^32 (the status is a `u16` by type, hence always below
2^16); outside these bounds the `as u16`/`as u32` casts in
`serialize_response` truncate and the round-trip no longer yields the
original response. -/
theorem C10_roundtrip_iff_bounds (r : RecResponse) (hwf : respWF r)
    (hst : r.status < 65536) :
    deserialize_response (serialize_response r) = .ok (toCached r) ↔
      r.headers.length < 65536 ∧
      (∀ p ∈ r.headers, p.1.length < 65536 ∧ p.2.length < 65536) ∧
      r.body.length < 4294967296 := by
  constructor
  · intro h
    have hb := deserialize_response_ok (serialize_response_lt r hwf) h
    exact ⟨hb.2.1, hb.2.2.1, hb.2.2.2⟩
  · intro hb
    exact deserialize_serialize r ⟨hst, hb.1, hb.2.1, hb.2.2⟩

/-- Witness for C10 at a concrete response. -/
theorem C10_roundtrip_iff_bounds_witness :
    deserialize_response (serialize_response okRecResponse) = .ok (toCached okRecResponse) ↔
      okRecResponse.headers.length < 65536 ∧
      (∀ p ∈ okRecResponse.headers, p.1.length < 65536 ∧ p.2.length < 65536) ∧
      okRecResponse.body.length < 4294967296 :=
  C10_roundtrip_iff_bounds okRecResponse (by decide) (by decide)

/-! ## C2 -/

/-- C2 counterexample: the header a fresh writer carries (and writes to
every recording file) has version 2, not 1, and `validate_header` accepts
it. -/
theorem C2_version_counterexample :
    (writerCreate (List.replicate 32 0) 0).header.version = 2 ∧
    validate_header (writerCreate (List.replicate 32 0) 0).header = .ok () := by
  constructor
  · rfl
  · rfl

/-- C2 (amended): recording files are written with version field 2
(`FILE_VERSION`), and for a header with valid magic, `validate_header`
accepts exactly versions 1 and 2, failing with `InvalidFormat` for any
other version. -/
theorem C2_version_policy (h : FileHeader) (hm : h.magic = FILE_MAGIC) :
    (∀ rid ts, (writerCreate rid ts).header.version = 2) ∧
    (validate_header h = .ok () ↔ h.version = 1 ∨ h.version = 2) ∧
    (h.version ≠ 1 → h.version ≠ 2 →
      validate_header h = .error (.InvalidFormat "Unsupported version")) := by
  have hmag : ¬h.magic ≠ FILE_MAGIC := by simp [hm]
  refine ⟨fun rid ts => rfl, ?_, ?_⟩
  · by_cases hv : h.version ≠ FILE_VERSION ∧ h.version ≠ FILE_VERSION_V1
    · simp only [validate_header, if_neg hmag, if_pos hv]
      constructor
      · intro hcontra; exact absurd hcontra (by simp)
      · intro hcontra
        rcases hcontra with h1 | h2
        · exact absurd h1 hv.2
        · exact absurd h2 hv.1
    · simp only [validate_header, if_neg hmag, if_neg hv]
      constructor
      · intro _
        rcases Decidable.not_and_iff_or_not.mp hv with h1 | h1
        · right; simpa [FILE_VERSION] using h1
        · left; simpa [FILE_VERSION_V1] using h1
      · intro _; trivial
  · intro h1 h2
    have hv : h.version ≠ FILE_VERSION ∧ h.version ≠ FILE_VERSION_V1 := ⟨h2, h1⟩
    simp only [validate_header, if_neg hmag, if_pos hv]

/-- Witness for C2 (amended) at the default header. -/
theorem C2_version_policy_witness :
    (∀ rid ts, (writerCreate rid ts).header.version = 2) ∧
    (validate_header defaultFileHeader = .ok () ↔
      defaultFileHeader.version = 1 ∨ defaultFileHeader.version = 2) ∧
    (defaultFileHeader.version ≠ 1 → defaultFileHeader.version ≠ 2 →
      validate_header defaultFileHeader = .error (.InvalidFormat "Unsupported version")) :=
  C2_version_policy defaultFileHeader rfl

/-! ## C6 -/

/-- C6 counterexample: `CHAIN_HEAD_HASH` is not the fingerprint of the
empty request with a predecessor of 32 zero bytes. -/
theorem C6_chain_head_counterexample :
    fingerprint_request emptyRequest (List.replicate 32 0) ≠ CHAIN_HEAD_HASH := by
  decide

/-- C6 (amended): `CHAIN_HEAD_HASH` equals the documented constant
`b4 d6 e6 0a ...`, but it is an arbitrary constant, not derived from the
fingerprint function: the fingerprint of the empty request with a 32-zero
predecessor is `3b 32 29 57 ...`. -/
theorem C6_chain_head_value :
    CHAIN_HEAD_HASH =
      [0xb4, 0xd6, 0xe6, 0x0a, 0x9b, 0x97, 0xe7, 0xb9, 0x8c, 0x63, 0xdf, 0x93, 0x08, 0x72, 0x8c, 0x5c,
       0x88, 0xc0, 0xb4, 0x0c, 0x39, 0x80, 0x46, 0x77, 0x2c, 0x63, 0x44, 0x7b, 0x94, 0x60, 0x8b, 0x4d] ∧
    fingerprint_request emptyRequest (List.replicate 32 0) =
      [0x3b, 0x32, 0x29, 0x57, 0xba, 0xda, 0xea, 0x3d, 0x02, 0x0f, 0x7a, 0xc5, 0x00, 0x59, 0x7b, 0x5e,
       0xd4, 0x7e, 0x31, 0xd3, 0xd5, 0xb5, 0x5a, 0x48, 0xf3, 0x9c, 0xdf, 0xbd, 0xb5, 0x94, 0x55, 0x3e] := by
  exact ⟨rfl, by decide⟩

/-! ## C1 -/

/-- C1 counterexample: a successful replay through the proxy leaves the
dispatcher's chain at its old value instead of the fingerprint of the
handled request. -/
theorem C1_chain_not_updated :
    (handle_replay CHAIN_HEAD_HASH
        [(fingerprint_request getTestRequest CHAIN_HEAD_HASH, okCachedResponse)]
        getTestRequest).1 = .ok okCachedResponse ∧
    (handle_replay CHAIN_HEAD_HASH
        [(fingerprint_request getTestRequest CHAIN_HEAD_HASH, okCachedResponse)]
        getTestRequest).2 ≠ fingerprint_request getTestRequest CHAIN_HEAD_HASH := by
  constructor
  · rfl
  · show CHAIN_HEAD_HASH ≠ fingerprint_request getTestRequest CHAIN_HEAD_HASH
    decide

/-- C1 (amended): when the replay lookup succeeds, `handle_request` in
replay mode returns the recorded response and leaves the dispatcher's
shared chain state unchanged (the code never writes the chain in the
replay path). -/
theorem C1_replay_returns_cached (chain : List Nat)
    (cache : List (List Nat × CachedResponse)) (r : Request) (resp : CachedResponse)
    (hl : cacheLookup cache (fingerprint_request r chain) = some resp) :
    (handle_replay chain cache r).1 = .ok resp ∧
    (handle_replay chain cache r).2 = chain := by
  simp [handle_replay, replay_request, hl]

/-- Witness for C1 (amended) at a concrete cache hit. -/
theorem C1_replay_returns_cached_witness :
    (handle_replay CHAIN_HEAD_HASH
        [(fingerprint_request getTestRequest CHAIN_HEAD_HASH, okCachedResponse)]
        getTestRequest).1 = .ok okCachedResponse ∧
    (handle_replay CHAIN_HEAD_HASH
        [(fingerprint_request getTestRequest CHAIN_HEAD_HASH, okCachedResponse)]
        getTestRequest).2 = CHAIN_HEAD_HASH :=
  C1_replay_returns_cached CHAIN_HEAD_HASH _ getTestRequest okCachedResponse (by
    simp [cacheLookup])

/-! ## C8 -/

/-- A writer whose index is full (65 536 interactions already appended). -/
def fullWriter : WriterState :=
  { writerCreate (List.replicate 32 0) 0 with
    header := { (writerCreate (List.replicate 32 0) 0).header with
      interaction_count := 65536 } }

/-- C8: `append_interaction` fails exactly when `interaction_count` has
reached `CHAIN_DEPTH_MAX = 65536`; on failure the writer state is
unchanged (no entry, no counter changes), and on success the count
advances by one. -/
theorem C8_append_depth_limit (w : WriterState) (rh ph rd sd : List Nat) (ts : Nat) :
    ((appendInteraction w rh ph rd sd ts).1 =
        .error (.Other "Recording full: max chain depth reached") ↔
      CHAIN_DEPTH_MAX ≤ w.header.interaction_count) ∧
    (CHAIN_DEPTH_MAX ≤ w.header.interaction_count →
      (appendInteraction w rh ph rd sd ts).2 = w) ∧
    (w.header.interaction_count < CHAIN_DEPTH_MAX →
      (appendInteraction w rh ph rd sd ts).1 = .ok () ∧
      (appendInteraction w rh ph rd sd ts).2.header.interaction_count =
        w.header.interaction_count + 1 ∧
      (appendInteraction w rh ph rd sd ts).2.header.file_size =
        w.header.file_size + rd.length + sd.length) := by
  by_cases h : CHAIN_DEPTH_MAX ≤ w.header.interaction_count
  · refine ⟨⟨fun _ => h, fun _ => ?_⟩, fun _ => ?_, fun hlt => absurd h (by omega)⟩
    · simp [appendInteraction, if_pos h]
    · simp [appendInteraction, if_pos h]
  · refine ⟨⟨fun hcontra => ?_, fun hge => absurd hge h⟩, fun hge => absurd hge h, fun _ => ?_⟩
    · rw [appendInteraction, if_neg h] at hcontra
      exact absurd hcontra (by simp)
    · rw [appendInteraction, if_neg h]
      exact ⟨rfl, rfl, rfl⟩

/-- Witness for C8: the 65 537th append on one writer fails and leaves the
state untouched. -/
theorem C8_append_depth_limit_witness :
    (appendInteraction fullWriter [] [] [] [] 0).2 = fullWriter ∧
    (appendInteraction fullWriter [] [] [] [] 0).1 =
      .error (.Other "Recording full: max chain depth reached") :=
  ⟨(C8_append_depth_limit fullWriter [] [] [] [] 0).2.1 (by decide),
   ((C8_append_depth_limit fullWriter [] [] [] [] 0).1).mpr (by decide)⟩

/-! ## Lemmas: the writer trace (`record_interaction` over one session) -/

/-- Default index entry for indexed access. -/
def dummyEntry : InteractionEntry := ⟨[], [], 0, 0, 0, 0, 0⟩

/-- Default (request, response) pair for indexed access. -/
def dummyPair : Request × RecResponse := (emptyRequest, ⟨0, [], []⟩)

/-- The index entries a successful session starting at `chain`, writing at
data offset `off`, produces for `pairs`, in slot order. -/
def traceEntries (chain : List Nat) (off : Nat) :
    List (Request × RecResponse) → List InteractionEntry
  | [] => []
  | (r, resp) :: rest =>
    { request_hash := fingerprint_request r chain, prev_request_hash := chain,
      request_offset := off,
      response_offset := off + (serialize_request r).length,
      timestamp := 0,
      request_size := (serialize_request r).length % 4294967296,
      response_size := (serialize_response resp).length % 4294967296 } ::
    traceEntries (fingerprint_request r chain)
      (off + (serialize_request r).length + (serialize_response resp).length) rest

/-- The data-section bytes that session writes: the blobs back to back. -/
def traceBlobs : List (Request × RecResponse) → List Nat
  | [] => []
  | (r, resp) :: rest => serialize_request r ++ serialize_response resp ++ traceBlobs rest

/-- Everything a successful `recordTrace` run does to the writer. -/
theorem recordTrace_ok_spec (pairs : List (Request × RecResponse)) :
    ∀ (chain : List Nat) (w : WriterState) (res : List Nat × WriterState),
    recordTrace chain w pairs = .ok res →
    res.2.entries = w.entries ++
      traceEntries chain (w.header.data_offset + w.header.file_size) pairs ∧
    res.2.data = w.data ++ traceBlobs pairs ∧
    res.2.header.data_offset = w.header.data_offset ∧
    res.2.header.file_size = w.header.file_size + (traceBlobs pairs).length ∧
    res.2.header.interaction_count = w.header.interaction_count + pairs.length ∧
    res.1 = chainAt chain (pairs.map Prod.fst) pairs.length := by
  induction pairs with
  | nil =>
    intro chain w res h
    simp only [recordTrace, Except.ok.injEq] at h
    subst h
    simp [traceEntries, traceBlobs, chainAt]
  | cons p rest ih =>
    intro chain w res h
    obtain ⟨r, resp⟩ := p
    by_cases hd : CHAIN_DEPTH_MAX ≤ w.header.interaction_count
    · simp only [recordTrace, record_interaction, appendInteraction, if_pos hd] at h
      exact absurd h (by simp)
    · simp only [recordTrace, record_interaction, appendInteraction, if_neg hd] at h
      obtain ⟨he, hdata, hoff, hfs, hcount, hchain⟩ := ih _ _ _ h
      dsimp only at he hdata hoff hfs hcount hchain
      refine ⟨?_, ?_, ?_, ?_, ?_, ?_⟩
      · rw [he]
        simp only [traceEntries, List.append_assoc, List.cons_append, List.nil_append]
        have harith : w.header.data_offset + w.header.file_size +
            (serialize_request r).length + (serialize_response resp).length =
            w.header.data_offset + (w.header.file_size +
              (serialize_request r).length + (serialize_response resp).length) := by omega
        rw [harith]
      · rw [hdata]
        simp [traceBlobs, List.append_assoc]
      · rw [hoff]
      · rw [hfs]
        simp only [traceBlobs, List.length_append, List.length_cons]
        omega
      · rw [hcount]
        simp only [List.length_cons]
        omega
      · rw [hchain]
        simp [chainAt]

/-- A trace from a fresh writer succeeds when the depth bound is met. -/
theorem recordTrace_ok_of_le (pairs : List (Request × RecResponse)) :
    ∀ (chain : List Nat) (w : WriterState),
    w.header.interaction_count + pairs.length ≤ CHAIN_DEPTH_MAX →
    ∃ res, recordTrace chain w pairs = .ok res := by
  induction pairs with
  | nil => intro chain w _; exact ⟨(chain, w), rfl⟩
  | cons p rest ih =>
    intro chain w hle
    obtain ⟨r, resp⟩ := p
    have hd : ¬CHAIN_DEPTH_MAX ≤ w.header.interaction_count := by
      simp only [List.length_cons] at hle
      omega
    obtain ⟨res, hres⟩ := ih (fingerprint_request r chain)
      { header := { w.header with
          interaction_count := w.header.interaction_count + 1,
          file_size := w.header.file_size + (serialize_request r).length +
            (serialize_response resp).length },
        entries := w.entries ++
          [{ request_hash := fingerprint_request r chain, prev_request_hash := chain,
             request_offset := w.header.data_offset + w.header.file_size,
             response_offset := w.header.data_offset + w.header.file_size +
               (serialize_request r).length,
             timestamp := 0,
             request_size := (serialize_request r).length % 4294967296,
             response_size := (serialize_response resp).length % 4294967296 }],
        data := w.data ++ serialize_request r ++ serialize_response resp }
      (by dsimp only; simp only [List.length_cons] at hle; omega)
    refine ⟨res, ?_⟩
    simp only [recordTrace, record_interaction, appendInteraction, if_neg hd]
    exact hres

theorem traceEntries_length (pairs : List (Request × RecResponse)) :
    ∀ c off, (traceEntries c off pairs).length = pairs.length := by
  induction pairs with
  | nil => intro c off; rfl
  | cons p rest ih =>
    intro c off
    obtain ⟨r, resp⟩ := p
    simp [traceEntries, ih]

theorem chainAt_zero (c : List Nat) (rs : List Request) : chainAt c rs 0 = c := by
  cases rs <;> rfl

theorem chainAt_succ (rs : List Request) :
    ∀ (c : List Nat) (i : Nat), i < rs.length →
    chainAt c rs (i + 1) = fingerprint_request (rs.getD i emptyRequest) (chainAt c rs i) := by
  induction rs with
  | nil => intro c i h; simp at h
  | cons r rest ih =>
    intro c i h
    cases i with
    | zero => simp [chainAt]
    | succ i =>
      simp only [chainAt, List.getD_cons_succ]
      exact ih _ i (by simpa using h)

theorem traceEntries_getD (pairs : List (Request × RecResponse)) :
    ∀ (c : List Nat) (off i : Nat), i < pairs.length →
    ((traceEntries c off pairs).getD i dummyEntry).prev_request_hash =
        chainAt c (pairs.map Prod.fst) i ∧
    ((traceEntries c off pairs).getD i dummyEntry).request_hash =
        fingerprint_request ((pairs.getD i dummyPair).1) (chainAt c (pairs.map Prod.fst) i) := by
  induction pairs with
  | nil => intro c off i h; simp at h
  | cons p rest ih =>
    intro c off i h
    obtain ⟨r, resp⟩ := p
    cases i with
    | zero => exact ⟨rfl, rfl⟩
    | succ i =>
      simp only [traceEntries, List.getD_cons_succ, List.map_cons, chainAt]
      exact ih _ _ i (by simpa using h)

theorem getD_map_fst (pairs : List (Request × RecResponse)) :
    ∀ i, i < pairs.length →
    (pairs.map Prod.fst).getD i emptyRequest = (pairs.getD i dummyPair).1 := by
  induction pairs with
  | nil => intro i h; simp at h
  | cons p rest ih =>
    intro i h
    cases i with
    | zero => rfl
    | succ i =>
      simp only [List.map_cons, List.getD_cons_succ]
      exact ih i (by simpa using h)

/-! ## C4 -/

/-- C4: after any successful sequence of `record_interaction` calls on one
fresh session, the stored index entries form an unbroken chain: slot 0's
`prev_request_hash` is `CHAIN_HEAD`, each later slot's `prev_request_hash`
is the previous slot's `request_hash`, and each slot's `request_hash` is the
fingerprint of its request with its own `prev_request_hash` as predecessor. -/
theorem C4_chain_links (pairs : List (Request × RecResponse)) (rid : List Nat) (ts : Nat)
    (res : List Nat × WriterState)
    (hrun : recordTrace CHAIN_HEAD_HASH (writerCreate rid ts) pairs = .ok res) :
    res.2.entries.length = pairs.length ∧
    (0 < pairs.length →
      (res.2.entries.getD 0 dummyEntry).prev_request_hash = CHAIN_HEAD_HASH) ∧
    (∀ i, i + 1 < pairs.length →
      (res.2.entries.getD (i + 1) dummyEntry).prev_request_hash =
        (res.2.entries.getD i dummyEntry).request_hash) ∧
    (∀ i, i < pairs.length →
      (res.2.entries.getD i dummyEntry).request_hash =
        fingerprint_request (pairs.getD i dummyPair).1
          ((res.2.entries.getD i dummyEntry).prev_request_hash)) := by
  obtain ⟨he, -, -, -, -, -⟩ := recordTrace_ok_spec pairs CHAIN_HEAD_HASH _ res hrun
  have hwe : res.2.entries = traceEntries CHAIN_HEAD_HASH
      ((writerCreate rid ts).header.data_offset + (writerCreate rid ts).header.file_size)
      pairs := by simpa [writerCreate] using he
  rw [hwe]
  set off := (writerCreate rid ts).header.data_offset + (writerCreate rid ts).header.file_size
  refine ⟨traceEntries_length pairs _ _, ?_, ?_, ?_⟩
  · intro hpos
    rw [(traceEntries_getD pairs CHAIN_HEAD_HASH off 0 hpos).1, chainAt_zero]
  · intro i hi
    have h1 := (traceEntries_getD pairs CHAIN_HEAD_HASH off (i + 1) hi).1
    have h2 := (traceEntries_getD pairs CHAIN_HEAD_HASH off i (by omega)).2
    rw [h1, h2]
    rw [chainAt_succ _ _ _ (by simpa using (by omega : i < pairs.length))]
    rw [getD_map_fst pairs i (by omega)]
  · intro i hi
    have h1 := (traceEntries_getD pairs CHAIN_HEAD_HASH off i hi).1
    have h2 := (traceEntries_getD pairs CHAIN_HEAD_HASH off i hi).2
    rw [h1, h2]

/-- Witness for C4: a concrete two-interaction session. -/
theorem C4_chain_links_witness :
    ∃ res, recordTrace CHAIN_HEAD_HASH (writerCreate (List.replicate 32 0) 0)
        [(getTestRequest, okRecResponse), (emptyRequest, okRecResponse)] = .ok res ∧
      res.2.entries.length = 2 ∧
      (res.2.entries.getD 0 dummyEntry).prev_request_hash = CHAIN_HEAD_HASH ∧
      (res.2.entries.getD 1 dummyEntry).prev_request_hash =
        (res.2.entries.getD 0 dummyEntry).request_hash := by
  obtain ⟨res, hres⟩ := recordTrace_ok_of_le
    [(getTestRequest, okRecResponse), (emptyRequest, okRecResponse)]
    CHAIN_HEAD_HASH (writerCreate (List.replicate 32 0) 0) (by decide)
  obtain ⟨hlen, h0, hlink, hfp⟩ := C4_chain_links _ (List.replicate 32 0) 0 res hres
  exact ⟨res, hres, by simpa using hlen, h0 (by decide), hlink 0 (by decide)⟩

/-! ## Lemmas: header bytes and CRC -/

theorem getD_lt_of_forall {l : List Nat} (h : ∀ b ∈ l, b < 256) (k : Nat) :
    l.getD k 0 < 256 := by
  rcases Nat.lt_or_ge k l.length with hk | hk
  · rw [List.getD_eq_getElem l 0 hk]
    exact h _ (List.getElem_mem hk)
  · rw [List.getD_eq_default _ _ hk]; omega

theorem getD_drop_add (l : List Nat) (k j d : Nat) :
    (l.drop k).getD j d = l.getD (k + j) d := by
  simp [List.getD_eq_getElem?_getD, List.getElem?_drop]

theorem getD_set_ne (l : List Nat) (i b d j : Nat) (h : i ≠ j) :
    (l.set i b).getD j d = l.getD j d := by
  simp [List.getD_eq_getElem?_getD, List.getElem?_set_ne h]

theorem getD_set_self (l : List Nat) (i b d : Nat) (h : i < l.length) :
    (l.set i b).getD i d = b := by
  simp [List.getD_eq_getElem?_getD, List.getElem?_set_self', h]

theorem take_set_of_le (l : List Nat) (i b k : Nat) (h : k ≤ i) :
    (l.set i b).take k = l.take k := by
  apply List.ext_getElem?
  intro j
  rw [List.getElem?_take, List.getElem?_take]
  split
  · rw [List.getElem?_set_ne (by omega)]
  · rfl

theorem drop_set_of_lt (l : List Nat) (i b k : Nat) (h : i < k) :
    (l.set i b).drop k = l.drop k := by
  apply List.ext_getElem?
  intro j
  rw [List.getElem?_drop, List.getElem?_drop, List.getElem?_set_ne (by omega)]

theorem decodeLe32_le32 (n : Nat) (rest : List Nat) (h : n < 4294967296) :
    decodeLe32 (le32 n ++ rest) = n := by
  simp only [le32, decodeLe32, List.cons_append, List.getD_cons_zero, List.getD_cons_succ]
  have h8 : n >>> 8 = n / 256 := by rw [Nat.shiftRight_eq_div_pow]
  have h16 : n >>> 16 = n / 65536 := by rw [Nat.shiftRight_eq_div_pow]
  have h24 : n >>> 24 = n / 16777216 := by rw [Nat.shiftRight_eq_div_pow]
  rw [h8, h16, h24]
  omega

theorem decodeLe32_drop (l : List Nat) (k : Nat) :
    decodeLe32 (l.drop k) =
      l.getD k 0 + 256 * (l.getD (k + 1) 0 + 256 * (l.getD (k + 2) 0 + 256 * l.getD (k + 3) 0)) := by
  simp only [decodeLe32, getD_drop_add, Nat.add_zero]

theorem crcBit_lt {c : Nat} (h : c < 4294967296) : crcBit c < 4294967296 := by
  unfold crcBit
  have hs : c >>> 1 < 4294967296 := by
    rw [Nat.shiftRight_eq_div_pow]
    omega
  split
  · have : (4294967296 : Nat) = 2 ^ 32 := by norm_num
    rw [this] at hs ⊢
    exact Nat.xor_lt_two_pow hs (by norm_num [crcPOLY])
  · exact hs

theorem crcByte_lt {c b : Nat} (hc : c < 4294967296) (hb : b < 256) :
    crcByte c b < 4294967296 := by
  unfold crcByte
  have hx : c ^^^ b < 4294967296 := by
    have : (4294967296 : Nat) = 2 ^ 32 := by norm_num
    rw [this] at hc ⊢
    exact Nat.xor_lt_two_pow hc (by omega)
  exact crcBit_lt (crcBit_lt (crcBit_lt (crcBit_lt (crcBit_lt (crcBit_lt (crcBit_lt
    (crcBit_lt hx)))))))

theorem crc32_lt (data : List Nat) (h : ∀ b ∈ data, b < 256) :
    crc32 data < 4294967296 := by
  unfold crc32
  have hfold : ∀ (l : List Nat) (c : Nat), (∀ b ∈ l, b < 256) → c < 4294967296 →
      l.foldl crcByte c < 4294967296 := by
    intro l
    induction l with
    | nil => intro c _ hc; simpa using hc
    | cons a t ih =>
      intro c hl hc
      simp only [List.foldl_cons]
      exact ih _ (fun b hb => hl b (List.mem_cons_of_mem _ hb))
        (crcByte_lt hc (hl a (List.mem_cons_self a t)))
  have hf := hfold data 0xFFFFFFFF h (by norm_num)
  have : (4294967296 : Nat) = 2 ^ 32 := by norm_num
  rw [this] at hf ⊢
  exact Nat.xor_lt_two_pow hf (by norm_num)

/-- The first 12 header bytes: magic and version. -/
def hdrPrefix (h : FileHeader) : List Nat := h.magic ++ le32 h.version

/-- Header bytes 16..128: everything after the CRC field. -/
def hdrTail (h : FileHeader) : List Nat :=
  h.recording_id ++ le64 h.interaction_count ++ le64 h.data_offset ++ le64 h.file_size ++
  le64 h.created_at ++ h.final_chain_state ++ le32 h.feature_flags ++
  [h.compression_type % 256, h.compression_level % 256] ++ List.replicate 10 0

theorem encodeFileHeader_decomp (h : FileHeader) :
    encodeFileHeader h = hdrPrefix h ++ (le32 h.header_crc ++ hdrTail h) := by
  simp [encodeFileHeader, hdrPrefix, hdrTail, List.append_assoc]

theorem hdrPrefix_length (h : FileHeader) (hm : h.magic = FILE_MAGIC) :
    (hdrPrefix h).length = 12 := by
  simp [hdrPrefix, hm, FILE_MAGIC, le32]

theorem hdrTail_length (h : FileHeader) (hr : h.recording_id.length = 32)
    (hf : h.final_chain_state.length = 32) : (hdrTail h).length = 112 := by
  simp [hdrTail, le32, le64, hr, hf]

theorem hdrPrefix_lt (h : FileHeader) (hm : h.magic = FILE_MAGIC) :
    ∀ b ∈ hdrPrefix h, b < 256 := by
  intro b hb
  simp only [hdrPrefix, hm, le32, FILE_MAGIC, List.mem_append, List.mem_cons,
    List.not_mem_nil, or_false] at hb
  rcases hb with (hb | hb | hb | hb | hb | hb | hb | hb) | hb | hb | hb | hb <;> omega

theorem hdrTail_lt (h : FileHeader) (hr : ∀ b ∈ h.recording_id, b < 256)
    (hf : ∀ b ∈ h.final_chain_state, b < 256) : ∀ b ∈ hdrTail h, b < 256 := by
  intro b hb
  simp only [hdrTail, le32, le64, List.mem_append, List.mem_cons,
    List.not_mem_nil, or_false, List.mem_replicate] at hb
  rcases hb with ((((((((hb | hb) | hb) | hb) | hb) | hb) | hb) | hb) | hb)
  · exact hr b hb
  · rcases hb with hb | hb | hb | hb | hb | hb | hb | hb <;> omega
  · rcases hb with hb | hb | hb | hb | hb | hb | hb | hb <;> omega
  · rcases hb with hb | hb | hb | hb | hb | hb | hb | hb <;> omega
  · rcases hb with hb | hb | hb | hb | hb | hb | hb | hb <;> omega
  · exact hf b hb
  · rcases hb with hb | hb | hb | hb <;> omega
  · rcases hb with hb | hb <;> omega
  · omega

theorem hdrPrefix_set_crc (h : FileHeader) (c : Nat) :
    hdrPrefix { h with header_crc := c } = hdrPrefix h := rfl

theorem hdrTail_set_crc (h : FileHeader) (c : Nat) :
    hdrTail { h with header_crc := c } = hdrTail h := rfl

/-- The header contents `finalize` writes: the final chain state stored and
the CRC field holding the CRC-32 of the other header bytes. -/
def crcConsistentHeader (w : WriterState) (fcs : List Nat) : FileHeader :=
  { w.header with
    final_chain_state := fcs
    header_crc := crc32
      (hdrPrefix { w.header with final_chain_state := fcs, header_crc := 0 } ++
       hdrTail { w.header with final_chain_state := fcs, header_crc := 0 }) }

/-- `finalize` writes exactly the header whose CRC field holds the CRC-32 of
the other header bytes (the CRC field itself excluded). -/
theorem finalizeHeader_eq (w : WriterState) (fcs : List Nat)
    (hm : w.header.magic = FILE_MAGIC) :
    finalizeHeader w fcs = encodeFileHeader (crcConsistentHeader w fcs) := by
  have hm1 : ({ w.header with final_chain_state := fcs, header_crc := 0 } : FileHeader).magic
      = FILE_MAGIC := hm
  have htake : (encodeFileHeader { w.header with final_chain_state := fcs, header_crc := 0 }).take 12
      = hdrPrefix { w.header with final_chain_state := fcs, header_crc := 0 } := by
    rw [encodeFileHeader_decomp]
    exact List.take_left' (hdrPrefix_length _ hm1)
  have hdrop : (encodeFileHeader { w.header with final_chain_state := fcs, header_crc := 0 }).drop 16
      = hdrTail { w.header with final_chain_state := fcs, header_crc := 0 } := by
    rw [encodeFileHeader_decomp, ← List.append_assoc]
    exact List.drop_left' (by simp [hdrPrefix_length _ hm1, le32])
  simp only [finalizeHeader]
  rw [htake, hdrop]
  rfl

/-- Opening the byte image of a header whose CRC field is consistent
succeeds, and any single-byte change in the CRC field region 12..16 turns
`open` into `CorruptedData` at offset 0. -/
theorem openHeader_encode (g : FileHeader)
    (hm : g.magic = FILE_MAGIC) (hv : g.version = FILE_VERSION)
    (hrl : g.recording_id.length = 32) (hrb : ∀ b ∈ g.recording_id, b < 256)
    (hfl : g.final_chain_state.length = 32) (hfb : ∀ b ∈ g.final_chain_state, b < 256)
    (hcrc : g.header_crc = crc32 (hdrPrefix g ++ hdrTail g)) :
    openHeader (encodeFileHeader g) = .ok (decodeFileHeader (encodeFileHeader g)) ∧
    decodeLe32 ((encodeFileHeader g).drop 12) =
      crc32 ((encodeFileHeader g).take 12 ++ (encodeFileHeader g).drop 16) ∧
    (∀ i b2, 12 ≤ i → i < 16 → b2 < 256 → b2 ≠ (encodeFileHeader g).getD i 0 →
      ∃ expected actual,
        openHeader ((encodeFileHeader g).set i b2) =
          .error (.CorruptedData 0 expected actual)) := by
  have hple : (hdrPrefix g).length = 12 := hdrPrefix_length g hm
  have htle : (hdrTail g).length = 112 := hdrTail_length g hrl hfl
  have hdec := encodeFileHeader_decomp g
  have hlen : (encodeFileHeader g).length = 128 := by rw [hdec]; simp [hple, htle, le32]
  have htake12 : (encodeFileHeader g).take 12 = hdrPrefix g := by
    rw [hdec]; exact List.take_left' hple
  have hdrop16 : (encodeFileHeader g).drop 16 = hdrTail g := by
    rw [hdec, ← List.append_assoc]
    exact List.drop_left' (by simp [hple, le32])
  have hdrop12 : (encodeFileHeader g).drop 12 = le32 g.header_crc ++ hdrTail g := by
    rw [hdec]; exact List.drop_left' hple
  have htake8 : (encodeFileHeader g).take 8 = g.magic := by
    rw [hdec]
    unfold hdrPrefix
    rw [List.append_assoc]
    exact List.take_left' (by simp [hm, FILE_MAGIC])
  have hdrop8 : (encodeFileHeader g).drop 8 = le32 g.version ++ (le32 g.header_crc ++ hdrTail g) := by
    rw [hdec]
    unfold hdrPrefix
    rw [List.append_assoc]
    exact List.drop_left' (by simp [hm, FILE_MAGIC])
  have hbytes : ∀ b ∈ encodeFileHeader g, b < 256 := by
    rw [hdec]
    intro b hb
    rcases List.mem_append.mp hb with hb | hb
    · exact hdrPrefix_lt g hm b hb
    · rcases List.mem_append.mp hb with hb | hb
      · simp only [le32, List.mem_cons, List.not_mem_nil, or_false] at hb
        rcases hb with hb | hb | hb | hb <;> omega
      · exact hdrTail_lt g hrb hfb b hb
  have hClt : g.header_crc < 4294967296 := by
    rw [hcrc]
    refine crc32_lt _ ?_
    intro b hb
    rcases List.mem_append.mp hb with hb | hb
    · exact hdrPrefix_lt g hm b hb
    · exact hdrTail_lt g hrb hfb b hb
  have hstored : decodeLe32 ((encodeFileHeader g).drop 12) = g.header_crc := by
    rw [hdrop12]; exact decodeLe32_le32 _ _ hClt
  have htail112 : ((encodeFileHeader g).drop 16).take 112 = (encodeFileHeader g).drop 16 := by
    rw [hdrop16, ← htle]
    exact List.take_length _
  have hcomputed : crc32 ((encodeFileHeader g).take 12 ++ ((encodeFileHeader g).drop 16).take 112) =
      g.header_crc := by
    rw [htail112, htake12, hdrop16, hcrc]
  have hdmagic : (decodeFileHeader (encodeFileHeader g)).magic = FILE_MAGIC := by
    show (encodeFileHeader g).take 8 = FILE_MAGIC
    rw [htake8, hm]
  have hdversion : (decodeFileHeader (encodeFileHeader g)).version = FILE_VERSION := by
    show decodeLe32 ((encodeFileHeader g).drop 8) = FILE_VERSION
    rw [hdrop8, decodeLe32_le32 _ _ (by rw [hv]; norm_num [FILE_VERSION]), hv]
  have hvalid : validate_header (decodeFileHeader (encodeFileHeader g)) = .ok () := by
    unfold validate_header
    rw [if_neg (by simp [hdmagic]), if_neg (by simp [hdversion])]
  have hnotlt : ¬(encodeFileHeader g).length < HEADER_SIZE := by
    rw [hlen]; norm_num [HEADER_SIZE]
  refine ⟨?_, ?_, ?_⟩
  · have hne : ¬((decodeFileHeader (encodeFileHeader g)).header_crc ≠
        crc32 ((encodeFileHeader g).take 12 ++ ((encodeFileHeader g).drop 16).take 112)) := by
      show ¬(decodeLe32 ((encodeFileHeader g).drop 12) ≠ _)
      rw [hstored, hcomputed]
      simp
    simp only [openHeader, if_neg hnotlt, hvalid, if_neg hne]
  · rw [hstored, htake12, hdrop16, hcrc]
  · intro i b2 h12 h16 hb2 hneq
    have hmlen : ((encodeFileHeader g).set i b2).length = 128 := by
      rw [List.length_set, hlen]
    have hmtake12 : ((encodeFileHeader g).set i b2).take 12 = (encodeFileHeader g).take 12 :=
      take_set_of_le _ _ _ _ h12
    have hmdrop16 : ((encodeFileHeader g).set i b2).drop 16 = (encodeFileHeader g).drop 16 :=
      drop_set_of_lt _ _ _ _ h16
    have hmtake8 : ((encodeFileHeader g).set i b2).take 8 = (encodeFileHeader g).take 8 :=
      take_set_of_le _ _ _ _ (by omega)
    have hmver : decodeLe32 (((encodeFileHeader g).set i b2).drop 8) =
        decodeLe32 ((encodeFileHeader g).drop 8) := by
      rw [decodeLe32_drop, decodeLe32_drop]
      rw [getD_set_ne _ _ _ _ _ (by omega), getD_set_ne _ _ _ _ _ (by omega),
          getD_set_ne _ _ _ _ _ (by omega), getD_set_ne _ _ _ _ _ (by omega)]
    have hmmagic : (decodeFileHeader ((encodeFileHeader g).set i b2)).magic = FILE_MAGIC := by
      show ((encodeFileHeader g).set i b2).take 8 = FILE_MAGIC
      rw [hmtake8, htake8, hm]
    have hmversion : (decodeFileHeader ((encodeFileHeader g).set i b2)).version = FILE_VERSION := by
      show decodeLe32 (((encodeFileHeader g).set i b2).drop 8) = FILE_VERSION
      rw [hmver, hdrop8, decodeLe32_le32 _ _ (by rw [hv]; norm_num [FILE_VERSION]), hv]
    have hmvalid : validate_header (decodeFileHeader ((encodeFileHeader g).set i b2)) = .ok () := by
      unfold validate_header
      rw [if_neg (by simp [hmmagic]), if_neg (by simp [hmversion])]
    have hdigit_i : ((encodeFileHeader g).set i b2).getD i 0 = b2 :=
      getD_set_self _ _ _ _ (by rw [hlen]; omega)
    have hb12 := getD_lt_of_forall hbytes 12
    have hb13 := getD_lt_of_forall hbytes 13
    have hb14 := getD_lt_of_forall hbytes 14
    have hb15 := getD_lt_of_forall hbytes 15
    have hsF : g.header_crc = (encodeFileHeader g).getD 12 0 + 256 *
        ((encodeFileHeader g).getD 13 0 + 256 *
          ((encodeFileHeader g).getD 14 0 + 256 * (encodeFileHeader g).getD 15 0)) := by
      rw [← decodeLe32_drop, hstored]
    have hstored_ne : decodeLe32 (((encodeFileHeader g).set i b2).drop 12) ≠ g.header_crc := by
      rw [decodeLe32_drop]
      interval_cases i <;>
        (rw [hdigit_i, getD_set_ne _ _ _ _ _ (by omega), getD_set_ne _ _ _ _ _ (by omega),
            getD_set_ne _ _ _ _ _ (by omega)]
         simp only [Nat.reduceAdd] at *
         omega)
    have honeg : (decodeFileHeader ((encodeFileHeader g).set i b2)).header_crc ≠
        crc32 (((encodeFileHeader g).set i b2).take 12 ++
          (((encodeFileHeader g).set i b2).drop 16).take 112) := by
      show decodeLe32 (((encodeFileHeader g).set i b2).drop 12) ≠ _
      rw [hmtake12, hmdrop16, hcomputed]
      exact hstored_ne
    have hmnotlt : ¬((encodeFileHeader g).set i b2).length < HEADER_SIZE := by
      rw [hmlen]; norm_num [HEADER_SIZE]
    refine ⟨decodeLe32 (((encodeFileHeader g).set i b2).drop 12),
      crc32 (((encodeFileHeader g).set i b2).take 12 ++
        (((encodeFileHeader g).set i b2).drop 16).take 112), ?_⟩
    simp only [openHeader, if_neg hmnotlt, hmvalid, if_pos honeg]
    rfl

/-! ## C9 -/

/-- C9: `RecordingReader::open` accepts an unmodified finalized header —
the CRC stored at bytes 12..16 equals the CRC-32 of bytes 0..12 and 16..128
— and every single-byte change inside the CRC field region (bytes 12..16)
makes `open` fail with `CorruptedData` whose offset is 0. -/
theorem C9_finalize_open_crc (w : WriterState) (fcs : List Nat)
    (hm : w.header.magic = FILE_MAGIC)
    (hv : w.header.version = FILE_VERSION)
    (hrl : w.header.recording_id.length = 32)
    (hrb : ∀ b ∈ w.header.recording_id, b < 256)
    (hfl : fcs.length = 32) (hfb : ∀ b ∈ fcs, b < 256) :
    (openHeader (finalizeHeader w fcs)).isOk = true ∧
    decodeLe32 ((finalizeHeader w fcs).drop 12) =
      crc32 ((finalizeHeader w fcs).take 12 ++ (finalizeHeader w fcs).drop 16) ∧
    (∀ i b2, 12 ≤ i → i < 16 → b2 < 256 → b2 ≠ (finalizeHeader w fcs).getD i 0 →
      ∃ expected actual,
        openHeader ((finalizeHeader w fcs).set i b2) =
          .error (.CorruptedData 0 expected actual)) := by
  have hp : hdrPrefix (crcConsistentHeader w fcs) =
      hdrPrefix { w.header with final_chain_state := fcs, header_crc := 0 } := by
    unfold hdrPrefix
    rfl
  have ht : hdrTail (crcConsistentHeader w fcs) =
      hdrTail { w.header with final_chain_state := fcs, header_crc := 0 } := by
    unfold hdrTail
    rfl
  have hcrc : (crcConsistentHeader w fcs).header_crc =
      crc32 (hdrPrefix (crcConsistentHeader w fcs) ++ hdrTail (crcConsistentHeader w fcs)) := by
    rw [hp, ht]; rfl
  rw [finalizeHeader_eq w fcs hm]
  obtain ⟨h1, h2, h3⟩ := openHeader_encode (crcConsistentHeader w fcs)
    (show (crcConsistentHeader w fcs).magic = FILE_MAGIC from hm)
    (show (crcConsistentHeader w fcs).version = FILE_VERSION from hv)
    (show (crcConsistentHeader w fcs).recording_id.length = 32 from hrl)
    (show ∀ b ∈ (crcConsistentHeader w fcs).recording_id, b < 256 from hrb)
    (show (crcConsistentHeader w fcs).final_chain_state.length = 32 from hfl)
    (show ∀ b ∈ (crcConsistentHeader w fcs).final_chain_state, b < 256 from hfb)
    hcrc
  exact ⟨by rw [h1]; rfl, h2, h3⟩

/-- Witness for C9 on a concrete finalized header: opening the unmodified
header succeeds, and flipping byte 12 (the first CRC byte) to a value it
does not already have yields `CorruptedData` at offset 0. -/
theorem C9_finalize_open_crc_witness :
    (openHeader (finalizeHeader (writerCreate (List.replicate 32 0) 0)
        (List.replicate 32 0))).isOk = true ∧
    (∃ b2 expected actual, b2 < 256 ∧
      openHeader ((finalizeHeader (writerCreate (List.replicate 32 0) 0)
          (List.replicate 32 0)).set 12 b2) =
        .error (.CorruptedData 0 expected actual)) := by
  have h := C9_finalize_open_crc (writerCreate (List.replicate 32 0) 0) (List.replicate 32 0)
    rfl rfl (by decide) (by decide) (by decide) (by decide)
  refine ⟨h.1, ?_⟩
  by_cases hz : (finalizeHeader (writerCreate (List.replicate 32 0) 0)
      (List.replicate 32 0)).getD 12 0 = 0
  · obtain ⟨e, a, he⟩ := h.2.2 12 1 (by omega) (by omega) (by omega) (by omega)
    exact ⟨1, e, a, by omega, he⟩
  · obtain ⟨e, a, he⟩ := h.2.2 12 0 (by omega) (by omega) (by omega)
      (fun hc => hz hc.symm)
    exact ⟨0, e, a, by omega, he⟩

/-! ## Lemmas: the byte-lexicographic order and stable sorting -/

/-- `≤` on the sort keys of two elements. -/
def keyLe {α : Type} (key : α → List Nat) (a b : α) : Prop :=
  lexLe (key a) (key b) = true

theorem lexLe_total (a : List Nat) : ∀ b, lexLe a b = true ∨ lexLe b a = true := by
  induction a with
  | nil => intro b; left; rfl
  | cons x xs ih =>
    intro b
    cases b with
    | nil => right; rfl
    | cons y ys =>
      by_cases h1 : x < y
      · left; simp [lexLe, h1]
      · by_cases h2 : y < x
        · right; simp [lexLe, h2]
        · have hxy : x = y := by omega
          subst hxy
          rcases ih ys with h | h
          · left; simp [lexLe, h]
          · right; simp [lexLe, h]

theorem lexLe_trans (a : List Nat) : ∀ b c, lexLe a b = true → lexLe b c = true →
    lexLe a c = true := by
  induction a with
  | nil => intro b c _ _; rfl
  | cons x xs ih =>
    intro b c hab hbc
    cases b with
    | nil => simp [lexLe] at hab
    | cons y ys =>
      cases c with
      | nil => simp [lexLe] at hbc
      | cons z zs =>
        by_cases h1 : x < y
        · by_cases h2 : y < z
          · simp [lexLe, show x < z by omega]
          · by_cases h3 : z < y
            · simp [lexLe, h2, h3] at hbc
            · have hyz : y = z := by omega
              subst hyz
              simp [lexLe, h1]
        · by_cases h4 : y < x
          · simp [lexLe, h1, h4] at hab
          · have hxy : x = y := by omega
            subst hxy
            simp only [lexLe, if_neg h1, if_neg h4] at hab
            by_cases h2 : x < z
            · simp [lexLe, h2]
            · by_cases h3 : z < x
              · simp [lexLe, h2, h3] at hbc
              · have hxz : x = z := by omega
                subst hxz
                simp only [lexLe, if_neg h2, if_neg h3] at hbc ⊢
                exact ih ys zs hab hbc

theorem lexLe_antisymm (a : List Nat) : ∀ b, lexLe a b = true → lexLe b a = true →
    a = b := by
  induction a with
  | nil =>
    intro b _ hba
    cases b with
    | nil => rfl
    | cons y ys => simp [lexLe] at hba
  | cons x xs ih =>
    intro b hab hba
    cases b with
    | nil => simp [lexLe] at hab
    | cons y ys =>
      by_cases h1 : x < y
      · simp [lexLe, h1, show ¬y < x by omega] at hba
      · by_cases h2 : y < x
        · simp [lexLe, h1, h2] at hab
        · have hxy : x = y := by omega
          subst hxy
          simp only [lexLe, if_neg h1, if_neg h2] at hab hba
          rw [ih ys hab hba]

theorem insertByKey_perm {α : Type} (key : α → List Nat) (x : α) (l : List α) :
    (insertByKey key x l).Perm (x :: l) := by
  induction l with
  | nil => exact List.Perm.refl _
  | cons y ys ih =>
    unfold insertByKey
    split
    · exact List.Perm.refl _
    · exact (ih.cons y).trans (List.Perm.swap x y ys)

theorem sortByKey_perm {α : Type} (key : α → List Nat) (l : List α) :
    (sortByKey key l).Perm l := by
  induction l with
  | nil => exact List.Perm.refl _
  | cons x xs ih => exact (insertByKey_perm key x (sortByKey key xs)).trans (ih.cons x)

theorem insertByKey_pairwise {α : Type} (key : α → List Nat) (x : α) (l : List α)
    (hl : l.Pairwise (keyLe key)) : (insertByKey key x l).Pairwise (keyLe key) := by
  induction l with
  | nil => simp [insertByKey, List.pairwise_cons, keyLe]
  | cons y ys ih =>
    rcases List.pairwise_cons.mp hl with ⟨hy, hys⟩
    unfold insertByKey
    split
    next h =>
      refine List.pairwise_cons.mpr ⟨?_, hl⟩
      intro z hz
      rcases List.mem_cons.mp hz with rfl | hz
      · exact h
      · exact lexLe_trans _ _ _ h (hy z hz)
    next h =>
      have hyx : keyLe key y x := by
        rcases lexLe_total (key x) (key y) with h2 | h2
        · exact absurd h2 h
        · exact h2
      refine List.pairwise_cons.mpr ⟨?_, ih hys⟩
      intro z hz
      have hz2 := (insertByKey_perm key x ys).mem_iff.mp hz
      rcases List.mem_cons.mp hz2 with rfl | hz2
      · exact hyx
      · exact hy z hz2

theorem sortByKey_pairwise {α : Type} (key : α → List Nat) (l : List α) :
    (sortByKey key l).Pairwise (keyLe key) := by
  induction l with
  | nil => exact List.Pairwise.nil
  | cons x xs ih => exact insertByKey_pairwise key x _ ih

/-- Two key-sorted lists that are permutations of each other and whose keys
are pairwise distinct are equal — sorted order is unique when no two
elements share a key. -/
theorem sorted_perm_nodup_eq {α : Type} (key : α → List Nat) :
    ∀ (l1 l2 : List α), l1.Perm l2 → l1.Pairwise (keyLe key) →
    l2.Pairwise (keyLe key) → (l1.map key).Nodup → l1 = l2 := by
  intro l1
  induction l1 with
  | nil =>
    intro l2 hp _ _ _
    exact hp.nil_eq
  | cons a t1 ih =>
    intro l2 hp hs1 hs2 hnd
    cases l2 with
    | nil => exact absurd hp.symm.nil_eq (by simp)
    | cons b t2 =>
      rcases List.pairwise_cons.mp hs1 with ⟨ha, ht1⟩
      rcases List.pairwise_cons.mp hs2 with ⟨hb, ht2⟩
      simp only [List.map_cons, List.nodup_cons] at hnd
      have hab : a = b := by
        by_contra hne
        have hbmem : b ∈ a :: t1 := hp.mem_iff.mpr (List.mem_cons_self b t2)
        have hamem : a ∈ b :: t2 := hp.mem_iff.mp (List.mem_cons_self a t1)
        rcases List.mem_cons.mp hbmem with h | hbt1
        · exact hne h.symm
        rcases List.mem_cons.mp hamem with h | hat2
        · exact hne h
        have hk : key a = key b :=
          lexLe_antisymm _ _ (ha b hbt1) (hb a hat2)
        exact hnd.1 (hk ▸ List.mem_map_of_mem key hbt1)
      subst hab
      rw [ih t2 hp.cons_inv ht1 ht2 hnd.2]

/-- Sorting two permutations with pairwise-distinct keys gives the same
list. -/
theorem sortByKey_eq_of_perm {α : Type} (key : α → List Nat) (l1 l2 : List α)
    (hp : l1.Perm l2) (hnd : (l1.map key).Nodup) :
    sortByKey key l1 = sortByKey key l2 := by
  refine sorted_perm_nodup_eq key _ _
    ((sortByKey_perm key l1).trans (hp.trans (sortByKey_perm key l2).symm))
    (sortByKey_pairwise key l1) (sortByKey_pairwise key l2) ?_
  exact (((sortByKey_perm key l1).map key).nodup_iff).mpr hnd

theorem insertByKey_map {α β : Type} (key1 : α → List Nat) (key2 : β → List Nat)
    (φ : α → β) (hk : ∀ a, key2 (φ a) = key1 a) (x : α) (l : List α) :
    (insertByKey key1 x l).map φ = insertByKey key2 (φ x) (l.map φ) := by
  induction l with
  | nil => rfl
  | cons y ys ih =>
    simp only [insertByKey, List.map_cons, hk]
    split
    · simp
    · simp [ih]

/-- Mapping commutes with sorting when the map preserves keys. -/
theorem sortByKey_map {α β : Type} (key1 : α → List Nat) (key2 : β → List Nat)
    (φ : α → β) (hk : ∀ a, key2 (φ a) = key1 a) (l : List α) :
    (sortByKey key1 l).map φ = sortByKey key2 (l.map φ) := by
  induction l with
  | nil => rfl
  | cons x xs ih =>
    simp only [sortByKey, List.map_cons]
    rw [insertByKey_map key1 key2 φ hk, ih]

/-! ## C5 -/

/-- The field list of the spec's canonical encoding, parameterized by the
trim applied to header values (the only point where the spec's wording and
the code differ): method uppercased, path normalized, query pairs sorted
stably by key, header pairs sorted by lowercased name with names lowercased
and values trimmed, then the body. -/
def specFields (trimv : List Nat → List Nat) (r : Request) : List (List Nat) :=
  [utf8 (upperStr r.method), utf8 (normalize_path r.path)] ++
  ((queryCanon r.query).map (fun p => [utf8 p.1, utf8 p.2])).flatten ++
  ((headersSorted r.headers).map (fun p => [utf8 (lowerStr p.1), utf8 (trimv p.2)])).flatten ++
  [r.body]

/-- The claim's fingerprint, word for word: each field length-prefixed with
a 32-bit little-endian byte count, header values stripped of leading and
trailing ASCII whitespace, the predecessor appended raw. -/
def fingerprint_spec_ascii (r : Request) (prev : List Nat) : List Nat :=
  sha256 (((specFields trimAscii r).map lenPrefixed).flatten ++ prev)

/-- The claim's fingerprint with the trim the code actually performs:
Unicode whitespace (`str::trim`). -/
def fingerprint_spec_unicode (r : Request) (prev : List Nat) : List Nat :=
  sha256 (((specFields trimStr r).map lenPrefixed).flatten ++ prev)

/-- A request whose only header value ends in U+00A0 (no-break space):
`str::trim` removes it, an ASCII-whitespace strip would not. -/
def nbspRequest : Request :=
  ⟨[0x47, 0x45, 0x54], [0x2F], [], [([0x61], [0x78, 0xA0])], []⟩

/-- C5 counterexample: on a header value with trailing U+00A0 the code's
fingerprint differs from the claimed one (ASCII-whitespace trim). -/
theorem C5_trim_counterexample :
    fingerprint_request nbspRequest CHAIN_HEAD_HASH ≠
      fingerprint_spec_ascii nbspRequest CHAIN_HEAD_HASH := by
  decide

theorem flatten_map_pairs {α : Type} (f g : α → List Nat) (l : List α) :
    (((l.map (fun p => [f p, g p])).flatten).map lenPrefixed).flatten =
    (l.map (fun p => lenPrefixed (f p) ++ lenPrefixed (g p))).flatten := by
  induction l with
  | nil => rfl
  | cons x xs ih =>
    simp only [List.map_cons, List.flatten_cons, List.map_append, List.flatten_append,
      List.map_nil, List.flatten_nil, List.append_nil, List.append_assoc, ih]

/-- C5 (amended): `fingerprint_request` is SHA-256 over the uppercased
method, normalized path, stably key-sorted query pairs, header pairs sorted
by lowercased name with names lowercased and values stripped of leading and
trailing Unicode whitespace (`str::trim`), and the body — each length
prefixed with a 32-bit little-endian byte count — followed by the 32 bytes
of the predecessor appended raw. -/
theorem C5_canonical_encoding (r : Request) (prev : List Nat) :
    fingerprint_request r prev = fingerprint_spec_unicode r prev := by
  unfold fingerprint_request fingerprint_spec_unicode
  congr 1
  unfold fingerprintMsg specFields
  simp only [List.map_append, List.flatten_append, List.map_cons, List.map_nil,
    List.flatten_cons, List.flatten_nil, flatten_map_pairs, List.append_assoc,
    List.append_nil, List.nil_append]

/-! ## C7 -/

/-- `GET /` with query `a=1&a=2`. -/
def dupKeyRequest1 : Request :=
  ⟨[0x47, 0x45, 0x54], [0x2F], [([0x61], [0x31]), ([0x61], [0x32])], [], []⟩

/-- `GET /` with query `a=2&a=1` — a permutation of `dupKeyRequest1`. -/
def dupKeyRequest2 : Request :=
  ⟨[0x47, 0x45, 0x54], [0x2F], [([0x61], [0x32]), ([0x61], [0x31])], [], []⟩

/-- C7 counterexample: two requests equal up to a permutation of their
query pairs (with a duplicated key) hash differently, because the stable
sort keeps equal-keyed pairs in their original relative order. -/
theorem C7_dup_key_counterexample :
    dupKeyRequest1.query.Perm dupKeyRequest2.query ∧
    fingerprint_request dupKeyRequest1 CHAIN_HEAD_HASH ≠
      fingerprint_request dupKeyRequest2 CHAIN_HEAD_HASH := by
  constructor
  · decide
  · decide

/-- C7 (amended): the fingerprint is invariant under permutation of query
pairs and header pairs and under ASCII case of the method and of header
names, provided the query keys are pairwise distinct and the lowercased
header names are pairwise distinct (with duplicate keys the stable sort
preserves input order, so such permutations can change the hash). -/
theorem C7_fingerprint_invariance (prev m1 m2 path body : List Nat)
    (q1 q2 h1 h2 : List (List Nat × List Nat))
    (hm : upperStr m1 = upperStr m2)
    (hq : q1.Perm q2) (hqn : (q1.map Prod.fst).Nodup)
    (hh : (h1.map (fun p => (lowerStr p.1, p.2))).Perm
          (h2.map (fun p => (lowerStr p.1, p.2))))
    (hhn : (h1.map (fun p => lowerStr p.1)).Nodup) :
    fingerprint_request ⟨m1, path, q1, h1, body⟩ prev =
      fingerprint_request ⟨m2, path, q2, h2, body⟩ prev := by
  have hquery : queryCanon q1 = queryCanon q2 :=
    sortByKey_eq_of_perm Prod.fst q1 q2 hq hqn
  have hhdr :
      (headersSorted h1).map
        (fun p => lenPrefixed (utf8 (lowerStr p.1)) ++ lenPrefixed (utf8 (trimStr p.2))) =
      (headersSorted h2).map
        (fun p => lenPrefixed (utf8 (lowerStr p.1)) ++ lenPrefixed (utf8 (trimStr p.2))) := by
    have hcomm : ∀ (h : List (List Nat × List Nat)),
        (headersSorted h).map
          (fun p => lenPrefixed (utf8 (lowerStr p.1)) ++ lenPrefixed (utf8 (trimStr p.2))) =
        (sortByKey Prod.fst (h.map (fun p => (lowerStr p.1, p.2)))).map
          (fun p => lenPrefixed (utf8 p.1) ++ lenPrefixed (utf8 (trimStr p.2))) := by
      intro h
      rw [← sortByKey_map (fun p => lowerStr p.1) Prod.fst
          (fun p => (lowerStr p.1, p.2)) (fun a => rfl) h]
      rw [List.map_map]
      rfl
    rw [hcomm h1, hcomm h2,
      sortByKey_eq_of_perm Prod.fst _ _ hh (by rw [List.map_map]; exact hhn)]
  unfold fingerprint_request
  congr 1
  unfold fingerprintMsg
  simp only [hquery]
  rw [hhdr, hm]

/-- Witness for C7 (amended) at concrete requests differing in method
case, header-name case and query/header order. -/
theorem C7_fingerprint_invariance_witness :
    fingerprint_request
      ⟨[0x47, 0x65, 0x54], [0x2F], [([0x61], [0x31]), ([0x62], [0x32])],
       [([0x58], [0x76])], []⟩ CHAIN_HEAD_HASH =
    fingerprint_request
      ⟨[0x67, 0x65, 0x74], [0x2F], [([0x62], [0x32]), ([0x61], [0x31])],
       [([0x78], [0x76])], []⟩ CHAIN_HEAD_HASH :=
  C7_fingerprint_invariance CHAIN_HEAD_HASH _ _ _ _ _ _ _ _
    (by decide) (by decide) (by decide) (by decide) (by decide)

/-! ## Lemmas: the replay cache built from a recorded session -/

/-- The (hash, cached response) pairs a session starting at chain `c`
contributes to the replay cache, in recording order. -/
def tracePairsCache (c : List Nat) :
    List (Request × RecResponse) → List (List Nat × CachedResponse)
  | [] => []
  | (r, resp) :: rest =>
    (fingerprint_request r c, toCached resp) ::
      tracePairsCache (fingerprint_request r c) rest

theorem tracePairsCache_length (pairs : List (Request × RecResponse)) :
    ∀ c, (tracePairsCache c pairs).length = pairs.length := by
  induction pairs with
  | nil => intro c; rfl
  | cons p rest ih =>
    intro c
    obtain ⟨r, resp⟩ := p
    simp [tracePairsCache, ih]

theorem cacheLookup_none_of_not_mem (l : List (List Nat × CachedResponse))
    (k : List Nat) (h : k ∉ l.map Prod.fst) : cacheLookup l k = none := by
  induction l with
  | nil => rfl
  | cons p rest ih =>
    simp only [List.map_cons, List.mem_cons] at h
    push_neg at h
    obtain ⟨k0, v0⟩ := p
    have hne : ¬ k0 = k := fun hc => h.1 hc.symm
    simp only [cacheLookup, if_neg hne]
    exact ih h.2

theorem cacheLookup_append_left {l1 : List (List Nat × CachedResponse)}
    {k : List Nat} {v : CachedResponse} (l2 : List (List Nat × CachedResponse))
    (h : cacheLookup l1 k = some v) : cacheLookup (l1 ++ l2) k = some v := by
  induction l1 with
  | nil => simp [cacheLookup] at h
  | cons p rest ih =>
    obtain ⟨k0, v0⟩ := p
    simp only [cacheLookup, List.cons_append] at h ⊢
    split at h
    · next hc => rw [if_pos hc]; exact h
    · next hc => rw [if_neg hc]; exact ih h

theorem cacheLookup_append_right {l1 : List (List Nat × CachedResponse)}
    {k : List Nat} (l2 : List (List Nat × CachedResponse))
    (h : cacheLookup l1 k = none) : cacheLookup (l1 ++ l2) k = cacheLookup l2 k := by
  induction l1 with
  | nil => rfl
  | cons p rest ih =>
    obtain ⟨k0, v0⟩ := p
    simp only [cacheLookup, List.cons_append] at h ⊢
    split at h
    · exact absurd h (by simp)
    · next hc => rw [if_neg hc]; exact ih h

/-- With pairwise-distinct keys, looking up in the reversed cache (newest
first, as `loadEntries` builds it) gives the same result as in recording
order. -/
theorem cacheLookup_reverse_nodup (l : List (List Nat × CachedResponse))
    (hnd : (l.map Prod.fst).Nodup) (k : List Nat) :
    cacheLookup l.reverse k = cacheLookup l k := by
  induction l with
  | nil => rfl
  | cons p rest ih =>
    obtain ⟨k0, v0⟩ := p
    simp only [List.map_cons, List.nodup_cons] at hnd
    simp only [List.reverse_cons, cacheLookup]
    by_cases hk : k0 = k
    · subst hk
      have hnone : cacheLookup rest.reverse k0 = none := by
        apply cacheLookup_none_of_not_mem
        rw [List.map_reverse, List.mem_reverse]
        exact hnd.1
      rw [if_pos rfl, cacheLookup_append_right _ hnone]
      simp [cacheLookup]
    · rw [if_neg hk, ← ih hnd.2]
      cases hlook : cacheLookup rest.reverse k with
      | none =>
        rw [cacheLookup_append_right _ hlook]
        simp [cacheLookup, hk]
      | some v => rw [cacheLookup_append_left _ hlook]

theorem tracePairsCache_fst_getD (pairs : List (Request × RecResponse)) :
    ∀ (c : List Nat) (i : Nat), i < pairs.length →
    ((tracePairsCache c pairs).getD i ([], ⟨0, [], []⟩)).1 =
      fingerprint_request (pairs.getD i dummyPair).1 (chainAt c (pairs.map Prod.fst) i) := by
  induction pairs with
  | nil => intro c i h; simp at h
  | cons p rest ih =>
    intro c i h
    obtain ⟨r, resp⟩ := p
    cases i with
    | zero =>
      simp only [tracePairsCache, List.getD_cons_zero, List.getD_cons_zero, List.map_cons]
      rw [chainAt_zero]
    | succ i =>
      simp only [tracePairsCache, List.getD_cons_succ, List.map_cons, chainAt]
      exact ih _ i (by simpa using h)

/-- Looking up the `i`-th recorded fingerprint (computed with the chain
value that preceded request `i`) in the session's cache pairs returns the
`i`-th recorded response, when the fingerprints are pairwise distinct. -/
theorem tracePairsCache_lookup (pairs : List (Request × RecResponse)) :
    ∀ (c : List Nat) (i : Nat), i < pairs.length →
    ((tracePairsCache c pairs).map Prod.fst).Nodup →
    cacheLookup (tracePairsCache c pairs)
      (fingerprint_request (pairs.getD i dummyPair).1 (chainAt c (pairs.map Prod.fst) i)) =
      some (toCached (pairs.getD i dummyPair).2) := by
  induction pairs with
  | nil => intro c i h; simp at h
  | cons p rest ih =>
    intro c i h hnd
    obtain ⟨r, resp⟩ := p
    simp only [tracePairsCache, List.map_cons, List.nodup_cons] at hnd
    cases i with
    | zero =>
      simp only [List.getD_cons_zero, List.map_cons]
      rw [chainAt_zero]
      simp [tracePairsCache, cacheLookup]
    | succ i =>
      have hi : i < rest.length := by simpa using h
      have hmem :
          fingerprint_request ((rest.getD i dummyPair).1)
            (chainAt (fingerprint_request r c) (rest.map Prod.fst) i) ∈
          (tracePairsCache (fingerprint_request r c) rest).map Prod.fst := by
        rw [← tracePairsCache_fst_getD rest _ i hi]
        apply List.mem_map_of_mem
        rw [List.getD_eq_getElem _ _ (by rw [tracePairsCache_length]; exact hi)]
        exact List.getElem_mem _
      have hne : ¬ fingerprint_request r c =
          fingerprint_request ((rest.getD i dummyPair).1)
            (chainAt (fingerprint_request r c) (rest.map Prod.fst) i) := by
        intro hc
        rw [← hc] at hmem
        exact hnd.1 hmem
      simp only [List.getD_cons_succ, List.map_cons, chainAt, tracePairsCache, cacheLookup]
      rw [if_neg hne]
      exact ih _ i hi hnd.2

/-- Loading a successful session's index entries against its data section
rebuilds exactly the session's (fingerprint, response) pairs, newest first
(the cache prepends), provided each serialized response deserializes losslessly
(its bounds hold and its byte length fits the `u32` size field). -/
theorem loadEntries_trace (pairs : List (Request × RecResponse)) :
    ∀ (chain : List Nat) (dof : Nat) (pre : List Nat)
      (cache : List (List Nat × CachedResponse)),
    (∀ p ∈ pairs, respBounds p.2 ∧ (serialize_response p.2).length < 4294967296) →
    loadEntries dof (pre ++ traceBlobs pairs) cache
        (traceEntries chain (dof + pre.length) pairs) =
      (tracePairsCache chain pairs).reverse ++ cache := by
  induction pairs with
  | nil => intro chain dof pre cache _; rfl
  | cons p rest ih =>
    intro chain dof pre cache hall
    obtain ⟨r, resp⟩ := p
    obtain ⟨hb, hlen⟩ := hall (r, resp) (List.mem_cons_self _ _)
    have hrest : ∀ q ∈ rest, respBounds q.2 ∧ (serialize_response q.2).length < 4294967296 :=
      fun q hq => hall q (List.mem_cons_of_mem _ hq)
    have hmod : (serialize_response resp).length % 4294967296 =
        (serialize_response resp).length := Nat.mod_eq_of_lt hlen
    have hguard : ¬ (dof + (pre ++ traceBlobs ((r, resp) :: rest)).length <
        (dof + pre.length + (serialize_request r).length) +
          (serialize_response resp).length % 4294967296) := by
      simp only [traceBlobs, List.length_append, hmod]
      omega
    have hdrop : (pre ++ traceBlobs ((r, resp) :: rest)).drop
        ((dof + pre.length + (serialize_request r).length) - dof) =
        serialize_response resp ++ traceBlobs rest := by
      have h1 : (dof + pre.length + (serialize_request r).length) - dof =
          pre.length + (serialize_request r).length := by omega
      rw [h1]
      have h2 : pre ++ traceBlobs ((r, resp) :: rest) =
          (pre ++ serialize_request r) ++ (serialize_response resp ++ traceBlobs rest) := by
        simp [traceBlobs, List.append_assoc]
      rw [h2]
      apply List.drop_left'
      simp
    have htake : (serialize_response resp ++ traceBlobs rest).take
        ((serialize_response resp).length % 4294967296) = serialize_response resp := by
      rw [hmod]
      exact List.take_left' rfl
    have hread : read_response dof (pre ++ traceBlobs ((r, resp) :: rest))
        { request_hash := fingerprint_request r chain, prev_request_hash := chain,
          request_offset := dof + pre.length,
          response_offset := dof + pre.length + (serialize_request r).length,
          timestamp := 0,
          request_size := (serialize_request r).length % 4294967296,
          response_size := (serialize_response resp).length % 4294967296 } =
        .ok (serialize_response resp) := by
      unfold read_response
      dsimp only
      rw [if_neg hguard, hdrop, htake]
    have harith : dof + pre.length + (serialize_request r).length +
        (serialize_response resp).length =
        dof + (pre ++ (serialize_request r ++ serialize_response resp)).length := by
      simp only [List.length_append]
      omega
    have hdata : pre ++ traceBlobs ((r, resp) :: rest) =
        (pre ++ (serialize_request r ++ serialize_response resp)) ++ traceBlobs rest := by
      simp [traceBlobs, List.append_assoc]
    simp only [traceEntries, loadEntries, hread, deserialize_serialize resp hb]
    rw [harith, hdata]
    rw [ih _ dof _ _ hrest]
    simp [tracePairsCache, List.reverse_cons, List.append_assoc]

/-- The replay cache a fresh session's recording loads back: exactly the
session's (fingerprint, response) pairs, newest first. -/
theorem freshSession_cache (pairs : List (Request × RecResponse)) (rid : List Nat) (ts : Nat)
    (hdepth : pairs.length ≤ CHAIN_DEPTH_MAX)
    (hwf : ∀ p ∈ pairs, respBounds p.2 ∧ (serialize_response p.2).length < 4294967296) :
    ∃ res, recordTrace CHAIN_HEAD_HASH (writerCreate rid ts) pairs = .ok res ∧
      loadEntries res.2.header.data_offset res.2.data [] res.2.entries =
        (tracePairsCache CHAIN_HEAD_HASH pairs).reverse := by
  obtain ⟨res, hres⟩ := recordTrace_ok_of_le pairs CHAIN_HEAD_HASH (writerCreate rid ts)
    (by simpa [writerCreate, defaultFileHeader] using hdepth)
  refine ⟨res, hres, ?_⟩
  obtain ⟨hent, hdata, hdof, -, -, -⟩ := recordTrace_ok_spec pairs CHAIN_HEAD_HASH _ res hres
  rw [hdof, hdata, hent]
  have happ := loadEntries_trace pairs CHAIN_HEAD_HASH
      ((writerCreate rid ts).header.data_offset) [] [] hwf
  simpa [writerCreate, defaultFileHeader] using happ

/-- Replaying any request against the cache loaded from a one-entry index can
never produce a response violating the parser's length bounds: the cache holds
only outputs of `deserialize_response`. -/
theorem replay_single_ne (D : Nat) (blobs : List Nat) (e : InteractionEntry)
    (q : Request) (c : List Nat) (bad : CachedResponse)
    (hbytes : ∀ b ∈ blobs, b < 256)
    (hbad : ¬ (∀ p ∈ bad.headers, p.1.length < 65536 ∧ p.2.length < 65536)) :
    replay_request (loadEntries D blobs [] [e]) q c ≠ .ok bad := by
  intro h
  simp only [loadEntries] at h
  cases hrr : read_response D blobs e with
  | error err =>
    simp only [hrr] at h
    simp [replay_request, cacheLookup] at h
  | ok bytes =>
    have hby : ∀ b ∈ bytes, b < 256 := by
      have hbeq : bytes = (blobs.drop (e.response_offset - D)).take e.response_size := by
        simp only [read_response] at hrr
        split at hrr
        · exact absurd hrr (by simp)
        · simp only [Except.ok.injEq] at hrr
          exact hrr.symm
      intro b hb
      rw [hbeq] at hb
      exact hbytes b (List.mem_of_mem_drop (List.mem_of_mem_take hb))
    cases hds : deserialize_response bytes with
    | error err =>
      simp only [hrr, hds] at h
      simp [replay_request, cacheLookup] at h
    | ok R =>
      simp only [hrr, hds] at h
      obtain ⟨-, -, hhb, -⟩ := deserialize_response_ok hby hds
      by_cases hk : e.request_hash = fingerprint_request q c
      · simp only [replay_request, cacheLookup, if_pos hk, Except.ok.injEq] at h
        subst h
        exact hbad hhb
      · simp only [replay_request, cacheLookup, if_neg hk] at h
        simp at h

/-- A response whose single header name is 65536 bytes long: the `u16` length
prefix `serialize_response` writes for it truncates to 0. -/
def oversizedResponse : RecResponse := ⟨200, [(List.replicate 65536 0x61, [])], []⟩

/-- C3 counterexample: recording the session `[(GET /test, oversizedResponse)]`
succeeds, but replaying the request with the chain value that preceded it does
not return the recorded response: the oversized header name cannot survive the
`u16` length prefix, so the loaded cache holds a different response (or none). -/
theorem C3_roundtrip_counterexample :
    ∃ res,
      recordTrace CHAIN_HEAD_HASH (writerCreate [] 0)
          [(getTestRequest, oversizedResponse)] = .ok res ∧
      replay_request (loadEntries res.2.header.data_offset res.2.data [] res.2.entries)
          getTestRequest CHAIN_HEAD_HASH ≠ .ok (toCached oversizedResponse) := by
  obtain ⟨res, hres⟩ := recordTrace_ok_of_le [(getTestRequest, oversizedResponse)]
    CHAIN_HEAD_HASH (writerCreate [] 0) (by decide)
  refine ⟨res, hres, ?_⟩
  obtain ⟨hent, hdata, hdof, -, -, -⟩ := recordTrace_ok_spec _ _ _ _ hres
  have hwfo : respWF oversizedResponse := by
    refine ⟨?_, ?_⟩
    · intro p hp
      simp only [oversizedResponse, List.mem_singleton] at hp
      subst hp
      refine ⟨?_, ?_⟩
      · intro b hb
        have hbe := List.eq_of_mem_replicate hb
        omega
      · intro b hb
        exact absurd hb (List.not_mem_nil b)
    · intro b hb
      exact absurd hb (List.not_mem_nil b)
  have hdb : ∀ b ∈ res.2.data, b < 256 := by
    intro b hb
    rw [hdata] at hb
    simp only [writerCreate, traceBlobs, List.nil_append, List.append_nil,
      List.mem_append] at hb
    rcases hb with hb | hb
    · exact (by decide : ∀ b ∈ serialize_request getTestRequest, b < 256) b hb
    · exact serialize_response_lt oversizedResponse hwfo b hb
  have hbad : ¬ (∀ p ∈ (toCached oversizedResponse).headers,
      p.1.length < 65536 ∧ p.2.length < 65536) := by
    intro hall
    have hlen := (hall (List.replicate 65536 0x61, []) (List.mem_singleton_self _)).1
    simp only [List.length_replicate] at hlen
    omega
  have hone : ∃ e, res.2.entries = [e] := by
    rw [hent]
    simp only [writerCreate, traceEntries, List.nil_append]
    exact ⟨_, rfl⟩
  obtain ⟨e, he⟩ := hone
  rw [he]
  exact replay_single_ne res.2.header.data_offset res.2.data e getTestRequest
    CHAIN_HEAD_HASH (toCached oversizedResponse) hdb hbad

/-- C3 (amended): for every session whose length respects the depth bound,
whose responses satisfy the serializer's lossless bounds with serialized size
below `2^32`, and whose fingerprints are pairwise distinct, recording from a
fresh writer succeeds and replaying each request in order — with the chain
value that preceded it during recording as `prev_hash` — through the loaded
cache returns exactly the recorded response. -/
theorem C3_record_replay_roundtrip (pairs : List (Request × RecResponse))
    (rid : List Nat) (ts : Nat)
    (hdepth : pairs.length ≤ CHAIN_DEPTH_MAX)
    (hwf : ∀ p ∈ pairs, respBounds p.2 ∧ (serialize_response p.2).length < 4294967296)
    (hnd : ((tracePairsCache CHAIN_HEAD_HASH pairs).map Prod.fst).Nodup) :
    ∃ res, recordTrace CHAIN_HEAD_HASH (writerCreate rid ts) pairs = .ok res ∧
      ∀ i, i < pairs.length →
        replay_request (loadEntries res.2.header.data_offset res.2.data [] res.2.entries)
            (pairs.getD i dummyPair).1
            (chainAt CHAIN_HEAD_HASH (pairs.map Prod.fst) i) =
          .ok (toCached (pairs.getD i dummyPair).2) := by
  obtain ⟨res, hres, hcache⟩ := freshSession_cache pairs rid ts hdepth hwf
  refine ⟨res, hres, ?_⟩
  intro i hi
  rw [hcache]
  simp only [replay_request, cacheLookup_reverse_nodup _ hnd,
    tracePairsCache_lookup pairs CHAIN_HEAD_HASH i hi hnd]



/-- Witness for C3: a concrete two-interaction session satisfies the
hypotheses, records, and replays both requests to the recorded responses. -/
theorem C3_record_replay_roundtrip_witness :
    ([(getTestRequest, okRecResponse), (emptyRequest, okRecResponse)]
        : List (Request × RecResponse)).length ≤ CHAIN_DEPTH_MAX ∧
    (∀ p ∈ ([(getTestRequest, okRecResponse), (emptyRequest, okRecResponse)]
        : List (Request × RecResponse)),
      respBounds p.2 ∧ (serialize_response p.2).length < 4294967296) ∧
    ((tracePairsCache CHAIN_HEAD_HASH
        [(getTestRequest, okRecResponse), (emptyRequest, okRecResponse)]).map
      Prod.fst).Nodup ∧
    (∃ res, recordTrace CHAIN_HEAD_HASH (writerCreate [] 0)
        [(getTestRequest, okRecResponse), (emptyRequest, okRecResponse)] = .ok res ∧
      ∀ i, i < ([(getTestRequest, okRecResponse), (emptyRequest, okRecResponse)]
          : List (Request × RecResponse)).length →
        replay_request (loadEntries res.2.header.data_offset res.2.data [] res.2.entries)
            (([(getTestRequest, okRecResponse), (emptyRequest, okRecResponse)]
              : List (Request × RecResponse)).getD i dummyPair).1
            (chainAt CHAIN_HEAD_HASH
              (([(getTestRequest, okRecResponse), (emptyRequest, okRecResponse)]
                : List (Request × RecResponse)).map Prod.fst) i) =
          .ok (toCached (([(getTestRequest, okRecResponse), (emptyRequest, okRecResponse)]
              : List (Request × RecResponse)).getD i dummyPair).2)) :=
  ⟨by decide, by decide, by decide,
   C3_record_replay_roundtrip
     [(getTestRequest, okRecResponse), (emptyRequest, okRecResponse)] [] 0
     (by decide) (by decide) (by decide)⟩

end Ouli
